import Mathlib

/-!
Verification development for the replacement-rule engine of `cmd.py`
(conway-markdown).  Strings are modelled as lists of Unicode code points
(`List Nat`); byte strings as lists of byte values (`List Nat`).  Python
functions are translated into executable Lean definitions; functions that
can raise an exception return `Except` or `Option`.
-/

namespace Cmd

/-- The characters matched by the regex class `[\s]` under `re.ASCII`:
tab, newline, vertical tab, form feed, carriage return, space. -/
def isSpaceCp (c : Nat) : Bool :=
  c == 9 || c == 10 || c == 11 || c == 12 || c == 13 || c == 32

/-- The characters matched by `[^\S\n]` under `re.ASCII`:
ASCII whitespace other than the newline. -/
def isHorizSpaceCp (c : Nat) : Bool :=
  c == 9 || c == 11 || c == 12 || c == 13 || c == 32

/-- ASCII decimal digits, the regex class `[0-9]`. -/
def isDigitCp (c : Nat) : Bool :=
  48 ≤ c && c ≤ 57

/-- A Unicode scalar value: a code point below `0x110000` that is not a
surrogate.  Python strings all of whose characters are scalar values are
exactly the strings accepted by `str.encode()`. -/
def ValidScalar (c : Nat) : Prop :=
  c < 0x110000 ∧ (c < 0xD800 ∨ 0xE000 ≤ c)

instance (c : Nat) : Decidable (ValidScalar c) := by
  unfold ValidScalar
  infer_instance

/-- The UTF-8 byte sequence produced by Python `str.encode()` for one
character with the given code point. -/
def utf8EncodeChar (c : Nat) : List Nat :=
  if c < 0x80 then [c]
  else if c < 0x800 then [0xC0 + c / 0x40, 0x80 + c % 0x40]
  else if c < 0x10000 then
    [0xE0 + c / 0x1000, 0x80 + c / 0x40 % 0x40, 0x80 + c % 0x40]
  else
    [0xF0 + c / 0x40000, 0x80 + c / 0x1000 % 0x40, 0x80 + c / 0x40 % 0x40, 0x80 + c % 0x40]

/-- The UTF-8 byte sequence of a string of code points (`str.encode()`). -/
def utf8Encode : List Nat → List Nat
  | [] => []
  | c :: rest => utf8EncodeChar c ++ utf8Encode rest

/-- Decode one UTF-8 encoded code point from the front of a byte list,
strictly (as Python `bytes.decode()` with the default strict error handler,
which rejects overlong forms, surrogates and code points above `0x10FFFF`):
returns the code point and the remaining bytes, or `none` if the list does
not start with a valid UTF-8 sequence. -/
def utf8DecodeOne : List Nat → Option (Nat × List Nat)
  | [] => none
  | b :: bs =>
    if b < 0x80 then some (b, bs)
    else if b < 0xC2 then none
    else if b < 0xE0 then
      match bs with
      | b2 :: bs2 =>
        if 0x80 ≤ b2 ∧ b2 < 0xC0 then
          some ((b - 0xC0) * 0x40 + (b2 - 0x80), bs2)
        else none
      | [] => none
    else if b < 0xF0 then
      match bs with
      | b2 :: b3 :: bs3 =>
        if (if b = 0xE0 then 0xA0 ≤ b2 ∧ b2 < 0xC0
            else if b = 0xED then 0x80 ≤ b2 ∧ b2 < 0xA0
            else 0x80 ≤ b2 ∧ b2 < 0xC0)
            ∧ 0x80 ≤ b3 ∧ b3 < 0xC0 then
          some ((b - 0xE0) * 0x1000 + (b2 - 0x80) * 0x40 + (b3 - 0x80), bs3)
        else none
      | _ => none
    else if b < 0xF5 then
      match bs with
      | b2 :: b3 :: b4 :: bs4 =>
        if (if b = 0xF0 then 0x90 ≤ b2 ∧ b2 < 0xC0
            else if b = 0xF4 then 0x80 ≤ b2 ∧ b2 < 0x90
            else 0x80 ≤ b2 ∧ b2 < 0xC0)
            ∧ 0x80 ≤ b3 ∧ b3 < 0xC0 ∧ 0x80 ≤ b4 ∧ b4 < 0xC0 then
          some ((b - 0xF0) * 0x40000 + (b2 - 0x80) * 0x1000 + (b3 - 0x80) * 0x40 + (b4 - 0x80), bs4)
        else none
      | _ => none
    else none

theorem utf8DecodeOne_length_lt {bs : List Nat} {c : Nat} {rest : List Nat}
    (h : utf8DecodeOne bs = some (c, rest)) : rest.length < bs.length := by
  match bs with
  | [] => simp [utf8DecodeOne] at h
  | b :: bs =>
    simp only [utf8DecodeOne] at h
    repeat' split at h
    all_goals simp_all
    all_goals omega

/-- Strict UTF-8 decoding of a whole byte list into code points, as Python
`bytes.decode()`: `none` models a `UnicodeDecodeError`. -/
def utf8Decode (bs : List Nat) : Option (List Nat) :=
  match h : utf8DecodeOne bs with
  | some (c, rest) => (utf8Decode rest).map (fun s => c :: s)
  | none =>
    match bs with
    | [] => some []
    | _ :: _ => none
termination_by bs.length
decreasing_by exact utf8DecodeOne_length_lt h

theorem utf8Decode_nil : utf8Decode [] = some [] := by
  rw [utf8Decode.eq_def]
  simp [utf8DecodeOne]

theorem utf8Decode_of_decodeOne {bs : List Nat} {c : Nat} {rest : List Nat}
    (h : utf8DecodeOne bs = some (c, rest)) :
    utf8Decode bs = (utf8Decode rest).map (fun s => c :: s) := by
  rw [utf8Decode.eq_def]
  split
  · rename_i c2 rest2 h2
    rw [h] at h2
    cases h2
    rfl
  · rename_i h2
    rw [h] at h2
    cases h2

set_option maxHeartbeats 1600000 in
theorem utf8DecodeOne_encodeChar {c : Nat} (hc : ValidScalar c) (bs : List Nat) :
    utf8DecodeOne (utf8EncodeChar c ++ bs) = some (c, bs) := by
  obtain ⟨h1, h2⟩ := hc
  by_cases ha : c < 0x80
  · simp [utf8EncodeChar, utf8DecodeOne, ha]
  · by_cases hb : c < 0x800
    · have e : utf8EncodeChar c = [0xC0 + c / 0x40, 0x80 + c % 0x40] := by
        simp [utf8EncodeChar, ha, hb]
      rw [e]
      simp only [List.cons_append, List.nil_append, utf8DecodeOne]
      split_ifs <;> try omega
      simp only [Option.some.injEq, Prod.mk.injEq, and_true]
      omega
    · by_cases hd : c < 0x10000
      · have e : utf8EncodeChar c
            = [0xE0 + c / 0x1000, 0x80 + c / 0x40 % 0x40, 0x80 + c % 0x40] := by
          simp [utf8EncodeChar, ha, hb, hd]
        rw [e]
        simp only [List.cons_append, List.nil_append, utf8DecodeOne]
        split_ifs <;> try omega
        all_goals simp only [Option.some.injEq, Prod.mk.injEq, and_true]
        all_goals omega
      · have e : utf8EncodeChar c
            = [0xF0 + c / 0x40000, 0x80 + c / 0x1000 % 0x40,
               0x80 + c / 0x40 % 0x40, 0x80 + c % 0x40] := by
          simp [utf8EncodeChar, ha, hb, hd]
        rw [e]
        simp only [List.cons_append, List.nil_append, utf8DecodeOne]
        split_ifs <;> try omega
        all_goals simp only [Option.some.injEq, Prod.mk.injEq, and_true]
        all_goals omega

theorem utf8Decode_encode_append (s : List Nat) (hs : ∀ c ∈ s, ValidScalar c)
    (bs : List Nat) :
    utf8Decode (utf8Encode s ++ bs) = (utf8Decode bs).map (fun t => s ++ t) := by
  induction s with
  | nil =>
    simp only [utf8Encode, List.nil_append]
    cases utf8Decode bs <;> simp
  | cons c rest ih =>
    have hc : ValidScalar c := hs c (by simp)
    have hrest : ∀ x ∈ rest, ValidScalar x := fun x hx => hs x (by simp [hx])
    simp only [utf8Encode, List.append_assoc]
    rw [utf8Decode_of_decodeOne (utf8DecodeOne_encodeChar hc (utf8Encode rest ++ bs))]
    rw [ih hrest]
    cases utf8Decode bs <;> simp

/-- UTF-8 round trip: strict decoding inverts encoding on strings of
Unicode scalar values. -/
theorem utf8Decode_utf8Encode (s : List Nat) (hs : ∀ c ∈ s, ValidScalar c) :
    utf8Decode (utf8Encode s) = some s := by
  have h := utf8Decode_encode_append s hs []
  rw [List.append_nil] at h
  rw [h, utf8Decode_nil]
  simp

/-! ## Placeholder service (`PlaceholderMaster`) -/

/-- The marker code point `U+F8FF` (`PlaceholderMaster.MARKER`). -/
def MARKER : Nat := 0xF8FF

/-- The run-character class of `_PLACEHOLDER_PATTERN_COMPILED`, namely the
regex class from `_RUN_CHARACTER_MIN = U+E000` to `_RUN_CHARACTER_MAX = U+E100`,
both bounds inclusive.  (Note that the upper bound written in the code is
`U+E100`, one past the `U+E0FF` documented in the class docstring.) -/
def isRunChar (c : Nat) : Bool :=
  0xE000 ≤ c && c ≤ 0xE100

/-- `PlaceholderMaster._unprotect_substitute_function` applied to the run
characters of one matched placeholder span: subtract `U+E000` from each run
code point to obtain byte values, build a `bytes` object (Python raises an
uncaught `ValueError` when a value is not below 256, modelled as
`Except.error ()`), then decode the bytes as UTF-8; a `UnicodeDecodeError`
is caught and the replacement character `U+FFFD` substituted. -/
def unprotectSubstitute (run : List Nat) : Except Unit (List Nat) :=
  let stringBytes := run.map (fun c => c - 0xE000)
  if stringBytes.all (fun b => b < 0x100) then
    match utf8Decode stringBytes with
    | some s => Except.ok s
    | none => Except.ok [0xFFFD]
  else Except.error ()

theorem dropWhile_len_le (p : Nat → Bool) (l : List Nat) :
    (l.dropWhile p).length ≤ l.length := by
  induction l with
  | nil => simp [List.dropWhile]
  | cons a t ih =>
    by_cases h : p a
    · simp only [List.dropWhile, h]
      simp only [List.length_cons]
      omega
    · simp [List.dropWhile, h]

/-- The scanning loop of `PlaceholderMaster.unprotect`, with a fuel
argument for structural recursion: the scan consumes at least one
character per step, so any fuel exceeding the length of the remaining
string gives the full left-to-right `re.sub` scan. -/
def unprotectGo : Nat → List Nat → Except Unit (List Nat)
  | _, [] => Except.ok []
  | 0, s => Except.ok s
  | fuel + 1, c :: rest =>
    if c = MARKER then
      if (rest.dropWhile isRunChar).isEmpty then do
        let t ← unprotectGo fuel rest
        Except.ok (c :: t)
      else if (rest.dropWhile isRunChar).headD 0 = MARKER then do
        let s ← unprotectSubstitute (rest.takeWhile isRunChar)
        let t ← unprotectGo fuel (rest.dropWhile isRunChar).tail
        Except.ok (s ++ t)
      else do
        let t ← unprotectGo fuel rest
        Except.ok (c :: t)
    else do
      let t ← unprotectGo fuel rest
      Except.ok (c :: t)

/-- `PlaceholderMaster.unprotect`: `re.sub` of the placeholder pattern
`«marker» [run characters]* «marker»` with `_unprotect_substitute_function`,
scanning left to right; at a marker the greedy run is maximal, and a span
counts as a placeholder exactly when the character following the maximal
run is again the marker.  The scan consumes at least one character per
step, so the structural fuel never runs out. -/
def unprotect (s : List Nat) : Except Unit (List Nat) :=
  unprotectGo (s.length + 1) s

theorem unprotectGo_irrel (fuel1 : Nat) :
    ∀ (fuel2 : Nat) (s : List Nat), s.length < fuel1 → s.length < fuel2 →
      unprotectGo fuel1 s = unprotectGo fuel2 s := by
  induction fuel1 with
  | zero =>
    intro fuel2 s h1 h2
    omega
  | succ fuel ih =>
    intro fuel2 s h1 h2
    cases s with
    | nil =>
      cases fuel2 with
      | zero => omega
      | succ f2 => rfl
    | cons c rest =>
      cases fuel2 with
      | zero => omega
      | succ f2 =>
        simp only [List.length_cons] at h1 h2
        show (if c = MARKER then _ else _) = (if c = MARKER then _ else _)
        have hdlen : (rest.dropWhile isRunChar).length ≤ rest.length :=
          dropWhile_len_le isRunChar rest
        by_cases hc : c = MARKER
        · rw [if_pos hc, if_pos hc]
          by_cases hemp : (rest.dropWhile isRunChar).isEmpty
          · rw [if_pos hemp, if_pos hemp]
            rw [ih f2 rest (by omega) (by omega)]
          · rw [if_neg hemp, if_neg hemp]
            have htail : (rest.dropWhile isRunChar).tail.length < rest.length := by
              cases hdw : rest.dropWhile isRunChar with
              | nil =>
                rw [hdw] at hemp
                exact absurd rfl hemp
              | cons m rest2 =>
                rw [hdw] at hdlen
                simp only [List.length_cons] at hdlen
                simp only [List.tail_cons]
                omega
            by_cases hm : (rest.dropWhile isRunChar).headD 0 = MARKER
            · rw [if_pos hm, if_pos hm]
              rw [ih f2 (rest.dropWhile isRunChar).tail (by omega) (by omega)]
            · rw [if_neg hm, if_neg hm]
              rw [ih f2 rest (by omega) (by omega)]
        · rw [if_neg hc, if_neg hc]
          rw [ih f2 rest (by omega) (by omega)]

/-- `PlaceholderMaster.protect`: first fully unprotect the string (this can
raise the same uncaught `ValueError` as `unprotect`), then encode its UTF-8
bytes as run characters and wrap them between two markers. -/
def protect (s : List Nat) : Except Unit (List Nat) := do
  let u ← unprotect s
  Except.ok (MARKER :: (utf8Encode u).map (fun b => b + 0xE000) ++ [MARKER])

theorem unprotect_nil : unprotect [] = Except.ok [] := rfl

theorem unprotect_cons_not_marker {c : Nat} {rest : List Nat} (hc : c ≠ MARKER) :
    unprotect (c :: rest) = (unprotect rest).map (fun t => c :: t) := by
  show unprotectGo (rest.length + 1 + 1) (c :: rest) = _
  show (if c = MARKER then _ else _) = _
  rw [if_neg hc]
  show Except.bind (unprotectGo (rest.length + 1) rest) _ = _
  cases h : unprotect rest with
  | ok t =>
    unfold unprotect at h
    rw [h]
    rfl
  | error e =>
    unfold unprotect at h
    rw [h]
    rfl

theorem unprotect_cons_marker {rest rest2 : List Nat}
    (hdrop : rest.dropWhile isRunChar = MARKER :: rest2) :
    unprotect (MARKER :: rest)
      = Except.bind (unprotectSubstitute (rest.takeWhile isRunChar)) (fun s =>
          Except.bind (unprotect rest2) (fun t => Except.ok (s ++ t))) := by
  have hdlen : (rest.dropWhile isRunChar).length ≤ rest.length :=
    dropWhile_len_le isRunChar rest
  rw [hdrop] at hdlen
  simp only [List.length_cons] at hdlen
  show unprotectGo (rest.length + 1 + 1) (MARKER :: rest) = _
  show (if MARKER = MARKER then _ else _) = _
  rw [if_pos rfl]
  rw [hdrop]
  simp only [List.isEmpty_cons, List.headD_cons, List.tail_cons]
  rw [if_pos trivial]
  have hfuel : unprotectGo (rest.length + 1) rest2 = unprotect rest2 :=
    unprotectGo_irrel (rest.length + 1) (rest2.length + 1) rest2 (by omega) (by omega)
  cases hsub : unprotectSubstitute (rest.takeWhile isRunChar) with
  | ok s =>
    rw [hfuel]
    rfl
  | error e => rfl

theorem unprotect_no_marker {s : List Nat} (hs : ∀ c ∈ s, c ≠ MARKER) :
    unprotect s = Except.ok s := by
  induction s with
  | nil => exact unprotect_nil
  | cons c rest ih =>
    rw [unprotect_cons_not_marker (hs c (by simp))]
    rw [ih (fun x hx => hs x (by simp [hx]))]
    rfl

theorem takeWhile_all_append {p : Nat → Bool} {l : List Nat} {m : Nat} {r : List Nat}
    (hl : ∀ x ∈ l, p x = true) (hm : p m = false) :
    (l ++ m :: r).takeWhile p = l ∧ (l ++ m :: r).dropWhile p = m :: r := by
  induction l with
  | nil => simp [List.takeWhile, List.dropWhile, hm]
  | cons a t ih =>
    have ha : p a = true := hl a (by simp)
    have ht : ∀ x ∈ t, p x = true := fun x hx => hl x (by simp [hx])
    obtain ⟨ih1, ih2⟩ := ih ht
    constructor
    · simp [List.takeWhile, ha, ih1]
    · simp [List.dropWhile, ha, ih2]

theorem utf8EncodeChar_lt {c : Nat} (hc : ValidScalar c) :
    ∀ b ∈ utf8EncodeChar c, b < 0x100 := by
  obtain ⟨h1, h2⟩ := hc
  intro b hb
  unfold utf8EncodeChar at hb
  split_ifs at hb <;> simp at hb <;> omega

theorem utf8Encode_lt {s : List Nat} (hs : ∀ c ∈ s, ValidScalar c) :
    ∀ b ∈ utf8Encode s, b < 0x100 := by
  induction s with
  | nil => simp [utf8Encode]
  | cons c rest ih =>
    intro b hb
    simp only [utf8Encode, List.mem_append] at hb
    rcases hb with hb | hb
    · exact utf8EncodeChar_lt (hs c (by simp)) b hb
    · exact ih (fun x hx => hs x (by simp [hx])) b hb

theorem map_sub_map_add (k : Nat) (l : List Nat) :
    (l.map (fun b => b + k)).map (fun c => c - k) = l := by
  induction l with
  | nil => rfl
  | cons a t ih =>
    simp only [List.map_cons, ih]
    simp

/-- Claim C1 (placeholder round trip): for every string `s` of Unicode
scalar values that contains no occurrence of the marker code point `U+F8FF`,
`unprotect(protect(s))` returns `s` exactly, including for strings with
non-ASCII and astral code points. -/
theorem placeholder_round_trip (s : List Nat)
    (hval : ∀ c ∈ s, ValidScalar c) (hmark : MARKER ∉ s) :
    (protect s).bind unprotect = Except.ok s := by
  have hnm : ∀ c ∈ s, c ≠ MARKER := by
    intro c hcs hce
    exact hmark (hce ▸ hcs)
  have hun : unprotect s = Except.ok s := unprotect_no_marker hnm
  have hpro : protect s
      = Except.ok (MARKER :: (utf8Encode s).map (fun b => b + 0xE000) ++ [MARKER]) := by
    rw [protect, hun]
    rfl
  rw [hpro]
  have henc_run : ∀ x ∈ (utf8Encode s).map (fun b => b + 0xE000), isRunChar x = true := by
    intro x hx
    simp only [List.mem_map] at hx
    obtain ⟨b, hb, hbx⟩ := hx
    have hblt := utf8Encode_lt hval b hb
    simp only [isRunChar, ← hbx, Bool.and_eq_true, decide_eq_true_eq]
    omega
  have hmark_not_run : isRunChar MARKER = false := by decide
  obtain ⟨htake, hdrop⟩ :=
    takeWhile_all_append (r := ([] : List Nat)) henc_run hmark_not_run
  show Except.bind _ _ = _
  simp only [Except.bind]
  have hrw : (MARKER :: ((utf8Encode s).map (fun b => b + 0xE000)) ++ [MARKER])
      = MARKER :: (((utf8Encode s).map (fun b => b + 0xE000)) ++ [MARKER]) := by
    simp
  rw [hrw, unprotect_cons_marker hdrop, htake]
  have hbytes : ((utf8Encode s).map (fun b => b + 0xE000)).map (fun c => c - 0xE000)
      = utf8Encode s := map_sub_map_add 0xE000 (utf8Encode s)
  have hsub : unprotectSubstitute ((utf8Encode s).map (fun b => b + 0xE000))
      = Except.ok s := by
    rw [unprotectSubstitute]
    simp only [hbytes]
    rw [if_pos]
    · rw [utf8Decode_utf8Encode s hval]
    · rw [List.all_eq_true]
      intro b hb
      have hblt := utf8Encode_lt hval b hb
      simp only [decide_eq_true_eq]
      omega
  rw [hsub]
  simp only [Except.bind]
  rw [unprotect_nil]
  simp

/-- Witness for C1 at the concrete input with code points
`[97, 163, 8364]` (the string with the characters a, pound sign, euro sign). -/
theorem placeholder_round_trip_witness :
    (protect [97, 163, 8364]).bind unprotect = Except.ok [97, 163, 8364] :=
  placeholder_round_trip [97, 163, 8364] (by decide) (by decide)

/-- Claim C3 evaluated at the failing input: the placeholder pattern
accepts the run character `U+E100` (the class upper bound written in the
code), whose byte value 256 makes the `bytes(...)` construction in
`_unprotect_substitute_function` raise an uncaught `ValueError` before the
guarded UTF-8 decode is reached, so `unprotect` aborts on the input
`U+F8FF U+E100 U+F8FF` instead of substituting the replacement character
(contradicting both the specification and the docstring of
`PlaceholderMaster`, which states the run band ends at `U+E0FF`). -/
theorem unprotect_value_error_at_e100 :
    unprotect [0xF8FF, 0xE100, 0xF8FF] = Except.error ()
    ∧ isRunChar 0xE100 = true := by
  constructor
  · have hdrop : List.dropWhile isRunChar [0xE100, MARKER] = MARKER :: [] := by
      simp [List.dropWhile, isRunChar, MARKER]
    have h := unprotect_cons_marker hdrop
    have heq : ([0xF8FF, 0xE100, 0xF8FF] : List Nat) = MARKER :: [0xE100, MARKER] := by
      simp [MARKER]
    rw [heq, h]
    have htake : List.takeWhile isRunChar [0xE100, MARKER] = [0xE100] := by
      simp [List.takeWhile, isRunChar, MARKER]
    rw [htake]
    rfl
  · decide

/-! ## Ordinary dictionary replacement (`OrdinaryDictionaryReplacement`) -/

/-- Python `str.replace(pat, sub)` on code-point lists: replace every
non-overlapping occurrence of `pat`, scanning left to right.  For the empty
pattern Python inserts the substitute before every character and at the
end. -/
def strReplaceGo : Nat → List Nat → List Nat → List Nat → List Nat
  | _, [], pat, sub => if pat.isEmpty then sub else []
  | 0, s, _, _ => s
  | fuel + 1, c :: rest, pat, sub =>
    if pat ≠ [] ∧ pat.isPrefixOf (c :: rest) then
      sub ++ strReplaceGo fuel ((c :: rest).drop pat.length) pat sub
    else if pat.isEmpty then
      sub ++ c :: strReplaceGo fuel rest pat sub
    else
      c :: strReplaceGo fuel rest pat sub

/-- Python `str.replace(pat, sub)` on code-point lists: replace every
non-overlapping occurrence of `pat`, scanning left to right (the scan
consumes at least one character per step, so the fuel never runs out).
For the empty pattern Python inserts the substitute before every character
and at the end. -/
def strReplace (s pat sub : List Nat) : List Nat :=
  strReplaceGo (s.length + 1) s pat sub

/-- Application of a list of concluding replacements in order: each one is
invoked through `Replacement.apply` with `enabled_flag_names` omitted, and
is modelled by the string transformation its `_apply` computes. -/
def conclApply (concls : List (List Nat → List Nat)) (s : List Nat) : List Nat :=
  concls.foldl (fun acc f => f acc) s

/-- `OrdinaryDictionaryReplacement.sequential_apply`: the first loop runs
`string.replace(pattern, substitute)` over the whole running string for
each pattern in declaration order; the second loop then applies each
concluding replacement to the whole resulting string. -/
def sequentialApply (pairs : List (List Nat × List Nat))
    (concls : List (List Nat → List Nat)) (s : List Nat) : List Nat :=
  conclApply concls (pairs.foldl (fun acc pr => strReplace acc pr.1 pr.2) s)

/-- The sequential-mode behaviour asserted by the specification sentence of
claim C4, for comparison: each substitute value (not the surrounding
unmatched text) is threaded through the concluding replacements before
being inserted into the result. -/
def sequentialApplyClaimed (pairs : List (List Nat × List Nat))
    (concls : List (List Nat → List Nat)) (s : List Nat) : List Nat :=
  pairs.foldl (fun acc pr => strReplace acc pr.1 (conclApply concls pr.2)) s

/-- The sequential mode written as a recursion over the patterns: replace
pattern after pattern in declaration order, each over the whole running
string, and finally pass the entire resulting string through the
concluding replacements. -/
def sequentialApplySpecRec (pairs : List (List Nat × List Nat))
    (concls : List (List Nat → List Nat)) (s : List Nat) : List Nat :=
  match pairs with
  | [] => conclApply concls s
  | pr :: rest => sequentialApplySpecRec rest concls (strReplace s pr.1 pr.2)

/-- `OrdinaryDictionaryReplacement.build_simultaneous_regex_pattern` joins
the literal patterns into one alternation in declaration order; `re.sub`
therefore matches, at each position, the first pattern in declaration
order that is a prefix of the remaining text. -/
def findSimMatch (pairs : List (List Nat × List Nat)) (s : List Nat) :
    Option (List Nat × List Nat) :=
  pairs.find? (fun pr => pr.1.isPrefixOf s)

/-- `OrdinaryDictionaryReplacement.simultaneous_apply`: one `re.sub` pass
over the text with the alternation of all literal patterns, where each
match is replaced by its substitute threaded through the concluding
replacements (`build_simultaneous_substitute_function`).  A zero-width
match (empty pattern) inserts its substitute and advances one character,
as `re.sub` does. -/
def simultaneousApply (pairs : List (List Nat × List Nat))
    (concls : List (List Nat → List Nat)) : List Nat → List Nat
  | [] =>
    match findSimMatch pairs [] with
    | some pr => conclApply concls pr.2
    | none => []
  | c :: rest =>
    match findSimMatch pairs (c :: rest) with
    | some pr =>
      if pr.1 = [] then
        conclApply concls pr.2 ++ c :: simultaneousApply pairs concls rest
      else
        conclApply concls pr.2 ++ simultaneousApply pairs concls ((c :: rest).drop pr.1.length)
    | none => c :: simultaneousApply pairs concls rest
termination_by s => s.length
decreasing_by
  all_goals simp only [List.length_drop, List.length_cons]
  all_goals first
    | omega
    | (rename_i hne
       have h1 : 1 ≤ pr.1.length := by
         cases hp : pr.1 with
         | nil => exact absurd hp hne
         | cons a t => simp
       omega)

/-- Claim C4 counterexample: one pattern-substitute pair `a → b`, one
concluding replacement `c → d` (itself an ordinary dictionary rule), input
`ac`.  The code applies the concluding replacement to the whole string and
produces `bd`; the claimed behaviour threads only the substitute value and
produces `bc`. -/
theorem sequential_concluding_counterexample :
    sequentialApply [([97], [98])] [fun t => strReplace t [99] [100]] [97, 99]
      ≠ sequentialApplyClaimed [([97], [98])] [fun t => strReplace t [99] [100]] [97, 99] := by
  have h1 : sequentialApply [([97], [98])] [fun t => strReplace t [99] [100]] [97, 99]
      = [98, 100] := rfl
  have h2 : sequentialApplyClaimed [([97], [98])] [fun t => strReplace t [99] [100]] [97, 99]
      = [98, 99] := rfl
  rw [h1, h2]
  simp

/-- Claim C4, amended: for every committed ordinary dictionary rule in
sequential mode, each pattern is replaced everywhere in the whole running
string, in declaration order, before the next pattern is considered; the
concluding replacements are then applied to the entire resulting string
(not to each substitute value). -/
theorem sequential_apply_amended (pairs : List (List Nat × List Nat))
    (concls : List (List Nat → List Nat)) (s : List Nat) :
    sequentialApply pairs concls s = sequentialApplySpecRec pairs concls s := by
  induction pairs generalizing s with
  | nil => rfl
  | cons pr rest ih =>
    simp only [sequentialApply, List.foldl_cons, sequentialApplySpecRec]
    exact ih (strReplace s pr.1 pr.2)

/-! ## Prefix helper lemmas -/

theorem isPrefixOf_iff {p l : List Nat} :
    p.isPrefixOf l = true ↔ ∃ t, l = p ++ t := by
  induction p generalizing l with
  | nil =>
    simp [List.isPrefixOf]
  | cons a p ih =>
    cases l with
    | nil => simp [List.isPrefixOf]
    | cons b l =>
      simp only [List.isPrefixOf, Bool.and_eq_true, beq_iff_eq, ih, List.cons_append,
        List.cons.injEq]
      constructor
      · rintro ⟨hab, t, ht⟩
        exact ⟨t, hab.symm, ht⟩
      · rintro ⟨t, hab, ht⟩
        exact ⟨hab.symm, t, ht⟩

theorem isPrefixOf_append_self (p t : List Nat) : p.isPrefixOf (p ++ t) = true :=
  isPrefixOf_iff.mpr ⟨t, rfl⟩

theorem isPrefixOf_refl (p : List Nat) : p.isPrefixOf p = true := by
  have h := isPrefixOf_append_self p []
  rw [List.append_nil] at h
  exact h

theorem isPrefixOf_length_le {p l : List Nat} (h : p.isPrefixOf l = true) :
    p.length ≤ l.length := by
  obtain ⟨t, ht⟩ := isPrefixOf_iff.mp h
  subst ht
  simp only [List.length_append]
  omega

theorem isPrefixOf_trans {p q l : List Nat} (h1 : p.isPrefixOf q = true)
    (h2 : q.isPrefixOf l = true) : p.isPrefixOf l = true := by
  obtain ⟨t1, ht1⟩ := isPrefixOf_iff.mp h1
  obtain ⟨t2, ht2⟩ := isPrefixOf_iff.mp h2
  subst ht1
  exact isPrefixOf_iff.mpr ⟨t1 ++ t2, by rw [ht2, List.append_assoc]⟩

theorem prefix_comparable {p q l : List Nat} (hp : p.isPrefixOf l = true)
    (hq : q.isPrefixOf l = true) :
    p.isPrefixOf q = true ∨ q.isPrefixOf p = true := by
  induction l generalizing p q with
  | nil =>
    obtain ⟨t1, ht1⟩ := isPrefixOf_iff.mp hp
    obtain ⟨t2, ht2⟩ := isPrefixOf_iff.mp hq
    cases p with
    | nil => left; simp [List.isPrefixOf]
    | cons a p2 => cases ht1
  | cons c l ih =>
    cases p with
    | nil => left; simp [List.isPrefixOf]
    | cons a p2 =>
      cases q with
      | nil => right; simp [List.isPrefixOf]
      | cons b q2 =>
        obtain ⟨t1, ht1⟩ := isPrefixOf_iff.mp hp
        obtain ⟨t2, ht2⟩ := isPrefixOf_iff.mp hq
        simp only [List.cons_append, List.cons.injEq] at ht1 ht2
        obtain ⟨ha, ht1⟩ := ht1
        obtain ⟨hb, ht2⟩ := ht2
        have hp2 : p2.isPrefixOf l = true := isPrefixOf_iff.mpr ⟨t1, ht1⟩
        have hq2 : q2.isPrefixOf l = true := isPrefixOf_iff.mpr ⟨t2, ht2⟩
        rcases ih hp2 hq2 with h | h
        · left
          simp [List.isPrefixOf, ha, hb, h]
          omega
        · right
          simp [List.isPrefixOf, ha, hb, h]
          omega

theorem find_eq_head_filter (p : (List Nat × List Nat) → Bool)
    (l : List (List Nat × List Nat)) :
    l.find? p = (l.filter p).head? := by
  induction l with
  | nil => rfl
  | cons a t ih =>
    by_cases h : p a
    · simp [List.find?, List.filter, h]
    · have hb2 : p a = false := by
        simp only [Bool.not_eq_true] at h
        exact h
      simp only [List.find?, List.filter, hb2]
      exact ih

theorem nodup_keys_eq {l : List (List Nat × List Nat)} (hnd : (l.map Prod.fst).Nodup)
    {a b : List Nat × List Nat} (ha : a ∈ l) (hb : b ∈ l) (hab : a.1 = b.1) :
    a = b := by
  induction l with
  | nil => cases ha
  | cons x t ih =>
    simp only [List.map_cons, List.nodup_cons] at hnd
    obtain ⟨hx, ht⟩ := hnd
    rcases List.mem_cons.mp ha with ha1 | ha1 <;> rcases List.mem_cons.mp hb with hb1 | hb1
    · rw [ha1, hb1]
    · exfalso
      apply hx
      rw [List.mem_map]
      exact ⟨b, hb1, by rw [← hab, ha1]⟩
    · exfalso
      apply hx
      rw [List.mem_map]
      exact ⟨a, ha1, by rw [hab, hb1]⟩
    · exact ih ht ha1 hb1

/-! ## Simultaneous-mode unfolding lemmas and order independence (C5) -/

theorem simApply_nil (pairs : List (List Nat × List Nat)) (concls : List (List Nat → List Nat)) :
    simultaneousApply pairs concls []
      = match findSimMatch pairs [] with
        | some pr => conclApply concls pr.2
        | none => [] := by
  rw [simultaneousApply.eq_def]

theorem simApply_cons_none {pairs : List (List Nat × List Nat)}
    {c : Nat} {rest : List Nat} (h : findSimMatch pairs (c :: rest) = none)
    (concls : List (List Nat → List Nat)) :
    simultaneousApply pairs concls (c :: rest) = c :: simultaneousApply pairs concls rest := by
  rw [simultaneousApply.eq_def]
  split
  · rename_i heq
    cases heq
  · rename_i c2 rest2 heq
    cases heq
    rw [h]

theorem simApply_cons_some_ne {pairs : List (List Nat × List Nat)}
    {c : Nat} {rest : List Nat} {pr : List Nat × List Nat}
    (h : findSimMatch pairs (c :: rest) = some pr) (hne : pr.1 ≠ [])
    (concls : List (List Nat → List Nat)) :
    simultaneousApply pairs concls (c :: rest)
      = conclApply concls pr.2
          ++ simultaneousApply pairs concls ((c :: rest).drop pr.1.length) := by
  rw [simultaneousApply.eq_def]
  split
  · rename_i heq
    cases heq
  · rename_i c2 rest2 heq
    cases heq
    rw [h]
    simp only [if_neg hne]

theorem findSimMatch_perm_eq {pairs1 pairs2 : List (List Nat × List Nat)}
    (hperm : pairs1.Perm pairs2)
    (hnodup : (pairs1.map Prod.fst).Nodup)
    (hpf : ∀ p ∈ pairs1.map Prod.fst, ∀ q ∈ pairs1.map Prod.fst,
        p.isPrefixOf q = true → p = q)
    (t : List Nat) :
    findSimMatch pairs1 t = findSimMatch pairs2 t := by
  unfold findSimMatch
  rw [find_eq_head_filter, find_eq_head_filter]
  have hpermf := hperm.filter (fun pr => pr.1.isPrefixOf t)
  have huniq : ∀ a ∈ pairs1.filter (fun pr => pr.1.isPrefixOf t),
      ∀ b ∈ pairs1.filter (fun pr => pr.1.isPrefixOf t), a = b := by
    intro a ha b hb
    rw [List.mem_filter] at ha hb
    obtain ⟨ha1, ha2⟩ := ha
    obtain ⟨hb1, hb2⟩ := hb
    have hamem : a.1 ∈ pairs1.map Prod.fst := List.mem_map.mpr ⟨a, ha1, rfl⟩
    have hbmem : b.1 ∈ pairs1.map Prod.fst := List.mem_map.mpr ⟨b, hb1, rfl⟩
    have hkey : a.1 = b.1 := by
      rcases prefix_comparable ha2 hb2 with h | h
      · exact hpf a.1 hamem b.1 hbmem h
      · exact (hpf b.1 hbmem a.1 hamem h).symm
    exact nodup_keys_eq hnodup ha1 hb1 hkey
  cases hf1 : pairs1.filter (fun pr => pr.1.isPrefixOf t) with
  | nil =>
    rw [hf1] at hpermf
    rw [hpermf.nil_eq.symm]
  | cons a t1 =>
    rw [hf1] at hpermf
    cases hf2 : pairs2.filter (fun pr => pr.1.isPrefixOf t) with
    | nil =>
      rw [hf2] at hpermf
      exact absurd hpermf.symm.nil_eq (by simp)
    | cons b t2 =>
      rw [hf2] at hpermf
      have hb1 : b ∈ pairs1.filter (fun pr => pr.1.isPrefixOf t) := by
        rw [hf1]
        exact hpermf.mem_iff.mpr (by simp)
      have ha1 : a ∈ pairs1.filter (fun pr => pr.1.isPrefixOf t) := by
        rw [hf1]
        simp
      simp only [List.head?_cons, Option.some.injEq]
      exact huniq a ha1 b hb1

/-- Claim C5 counterexample: the two declaration orders of the same set of
literal pairs `a → 1`, `ab → 2` give different outputs on the input `ab`
(the order `a` first yields `1b`; the order `ab` first yields `2`),
because the alternation matches the first declared alternative. -/
theorem simultaneous_order_counterexample :
    List.Perm [([97], [49]), ([97, 98], [50])] [([97, 98], [50]), ([97], [49])]
    ∧ simultaneousApply [([97], [49]), ([97, 98], [50])] [] [97, 98]
      ≠ simultaneousApply [([97, 98], [50]), ([97], [49])] [] [97, 98] := by
  constructor
  · exact List.Perm.swap ([97, 98], [50]) ([97], [49]) []
  · have h1 : simultaneousApply [([97], [49]), ([97, 98], [50])] [] [97, 98] = [49, 98] := by
      simp [simultaneousApply, findSimMatch, List.find?, List.isPrefixOf, conclApply]
    have h2 : simultaneousApply [([97, 98], [50]), ([97], [49])] [] [97, 98] = [50] := by
      simp [simultaneousApply, findSimMatch, List.find?, List.isPrefixOf, conclApply]
    rw [h1, h2]
    simp

/-- Claim C5, amended: simultaneous mode is order-independent provided the
literal patterns are disjoint in the sense that no pattern is a prefix of
another (and patterns are distinct and non-empty): for two declaration
orders of the same pattern-substitute pairs, the committed rules give the
same output on every input text. -/
theorem simultaneous_order_independent
    (pairs1 pairs2 : List (List Nat × List Nat)) (concls : List (List Nat → List Nat))
    (hperm : pairs1.Perm pairs2)
    (hnodup : (pairs1.map Prod.fst).Nodup)
    (hne : ∀ pr ∈ pairs1, pr.1 ≠ [])
    (hpf : ∀ p ∈ pairs1.map Prod.fst, ∀ q ∈ pairs1.map Prod.fst,
        p.isPrefixOf q = true → p = q)
    (s : List Nat) :
    simultaneousApply pairs1 concls s = simultaneousApply pairs2 concls s := by
  have key : ∀ t, findSimMatch pairs1 t = findSimMatch pairs2 t :=
    findSimMatch_perm_eq hperm hnodup hpf
  suffices hsuf : ∀ n s2, List.length s2 ≤ n →
      simultaneousApply pairs1 concls s2 = simultaneousApply pairs2 concls s2 by
    exact hsuf s.length s le_rfl
  intro n
  induction n with
  | zero =>
    intro s2 hs2
    have hnil : s2 = [] := List.eq_nil_of_length_eq_zero (by omega)
    subst hnil
    rw [simApply_nil, simApply_nil, key]
  | succ n ih =>
    intro s2 hs2
    cases s2 with
    | nil => rw [simApply_nil, simApply_nil, key]
    | cons c rest =>
      cases hf : findSimMatch pairs1 (c :: rest) with
      | none =>
        have hf2 : findSimMatch pairs2 (c :: rest) = none := by
          rw [← key]
          exact hf
        rw [simApply_cons_none hf, simApply_cons_none hf2]
        simp only [List.length_cons] at hs2
        rw [ih rest (by omega)]
      | some pr =>
        have hf2 : findSimMatch pairs2 (c :: rest) = some pr := by
          rw [← key]
          exact hf
        have hmem : pr ∈ pairs1 := List.mem_of_find?_eq_some hf
        have hprne : pr.1 ≠ [] := hne pr hmem
        rw [simApply_cons_some_ne hf hprne, simApply_cons_some_ne hf2 hprne]
        have hlen : 1 ≤ pr.1.length := by
          cases hp : pr.1 with
          | nil => exact absurd hp hprne
          | cons a t => simp
        simp only [List.length_cons] at hs2
        congr 1
        apply ih
        simp only [List.length_drop, List.length_cons]
        omega

/-- Witness for the amended C5 at the concrete pair sets `a → 1`, `b → 2`
in both orders, on the input `ab`. -/
theorem simultaneous_order_independent_witness :
    simultaneousApply [([97], [49]), ([98], [50])] [] [97, 98]
      = simultaneousApply [([98], [50]), ([97], [49])] [] [97, 98] :=
  simultaneous_order_independent [([97], [49]), ([98], [50])] [([98], [50]), ([97], [49])]
    [] (by decide) (by decide) (by decide) (by decide) [97, 98]

/-! ## Flag gating (`Replacement.apply`), claim C9 -/

/-- `Replacement.apply(string, enabled_flag_names=None)` for a committed
rule: when `enabled_flag_names` is provided (`some flags`), a set positive
flag absent from the flags, or a set negative flag present in them, makes
the call return the string unchanged; the compiled transformation
(`_apply`, here the abstract `applyFn`) runs otherwise.  When
`enabled_flag_names` is omitted (`none`), the gating checks are skipped
entirely and the transformation always runs. -/
def replacementApply (pos neg : Option (List Nat)) (applyFn : List Nat → List Nat)
    (enabled : Option (List (List Nat))) (s : List Nat) : List Nat :=
  match enabled with
  | none => applyFn s
  | some flags =>
    match pos with
    | some pf =>
      if pf ∈ flags then
        match neg with
        | some nf => if nf ∈ flags then s else applyFn s
        | none => applyFn s
      else s
    | none =>
      match neg with
      | some nf => if nf ∈ flags then s else applyFn s
      | none => applyFn s

/-- Claim C9 counterexample: a committed ordinary dictionary rule `a → b`
with positive gating flag `F`, applied with the `enabled_flag_names`
argument omitted, transforms the text `a` to `b` instead of returning it
unchanged: the gating checks run only when the argument is provided. -/
theorem flag_gating_counterexample :
    replacementApply (some [70]) none
      (fun t => simultaneousApply [([97], [98])] [] t) none [97] ≠ [97] := by
  have h : replacementApply (some [70]) none
      (fun t => simultaneousApply [([97], [98])] [] t) none [97] = [98] := by
    simp [replacementApply, simultaneousApply, findSimMatch, List.find?, List.isPrefixOf,
      conclApply]
  rw [h]
  simp

/-- Claim C9, amended: for every committed rule, whenever the
`enabled_flag_names` argument is provided, a set positive gating flag that
is absent from it, or a set negative gating flag that is present in it,
makes `apply` return the text unchanged; when the argument is omitted the
gating is skipped and the compiled transformation is applied
unconditionally. -/
theorem flag_gating_amended (pos neg : Option (List Nat))
    (applyFn : List Nat → List Nat) (flags : List (List Nat)) (s : List Nat) :
    (∀ pf, pos = some pf → pf ∉ flags →
        replacementApply pos neg applyFn (some flags) s = s)
    ∧ (∀ nf, neg = some nf → nf ∈ flags →
        replacementApply pos neg applyFn (some flags) s = s)
    ∧ replacementApply pos neg applyFn none s = applyFn s := by
  refine ⟨?_, ?_, rfl⟩
  · intro pf hpos habs
    subst hpos
    simp [replacementApply, habs]
  · intro nf hneg hpres
    subst hneg
    cases pos with
    | none => simp [replacementApply, hpres]
    | some pf =>
      by_cases hpf : pf ∈ flags
      · simp [replacementApply, hpf, hpres]
      · simp [replacementApply, hpf]

/-- Witness for the amended C9: rule `a → b` with positive flag `F` and
negative flag `G`; providing the flag list `[G]` blocks the rule both ways,
omitting the argument lets it run. -/
theorem flag_gating_amended_witness :
    replacementApply (some [70]) (some [71])
      (fun t => simultaneousApply [([97], [98])] [] t) (some [[71]]) [97] = [97]
    ∧ replacementApply (some [70]) (some [71])
        (fun t => simultaneousApply [([97], [98])] [] t) none [97]
      = simultaneousApply [([97], [98])] [] [97] := by
  constructor
  · exact (flag_gating_amended (some [70]) (some [71])
      (fun t => simultaneousApply [([97], [98])] [] t) [[71]] [97]).1 [70] rfl (by decide)
  · exact (flag_gating_amended (some [70]) (some [71])
      (fun t => simultaneousApply [([97], [98])] [] t) [[71]] [97]).2.2

/-! ## Queue construction and execution (`ReplacementMaster`), claim C2 -/

/-- The queue position of a committed rule, as staged by
`stage_queue_position` and consumed by `commit`. -/
inductive QueuePos where
  | noPos : QueuePos
  | root : QueuePos
  | before (ref : List Nat) : QueuePos
  | after (ref : List Nat) : QueuePos
deriving DecidableEq

/-- Python `list.insert(i, a)`: insert at index `i`, clamping to the end. -/
def insertAt {α : Type} : Nat → α → List α → List α
  | _, a, [] => [a]
  | 0, a, l => a :: l
  | n + 1, a, b :: l => b :: insertAt n a l

/-- The queue-splicing step of `ReplacementMaster.commit`: a rule with no
queue position is not queued; `ROOT` appends; `BEFORE`/`AFTER` splice at
the index of the referenced rule (`list.index`, whose failure — impossible
after the staging checks — is modelled as `none`). -/
def commitToQueue (q : List (List Nat)) (id : List Nat) (pos : QueuePos) :
    Option (List (List Nat)) :=
  match pos with
  | .noPos => some q
  | .root => some (q ++ [id])
  | .before ref =>
    match q.findIdx? (fun x => x == ref) with
    | some i => some (insertAt i id q)
    | none => none
  | .after ref =>
    match q.findIdx? (fun x => x == ref) with
    | some i => some (insertAt (i + 1) id q)
    | none => none

/-- Committing a sequence of declarations in order, starting from the
empty queue of one conversion. -/
def compileQueue (decls : List (List Nat × QueuePos)) : Option (List (List Nat)) :=
  decls.foldl (fun acc pr => acc.bind (fun q => commitToQueue q pr.1 pr.2)) (some [])

/-- `ReplacementMaster.execute`: apply every queued rule in queue order to
the running string. -/
def executeQueue (q : List (List Nat)) (applyOf : List Nat → List Nat → List Nat)
    (s : List Nat) : List Nat :=
  q.foldl (fun acc id => applyOf id acc) s

/-- Claim C2 (queue ordering): declaring `r` with `ROOT`, then `s` with
`AFTER #r`, then `t` with `BEFORE #s` produces the execution queue
`[r, t, s]`, and `execute` applies the rules in exactly that order
(ids are the one-letter strings r = 114, s = 115, t = 116). -/
theorem queue_ordering :
    compileQueue [([114], QueuePos.root), ([115], QueuePos.after [114]),
        ([116], QueuePos.before [115])]
      = some [[114], [116], [115]]
    ∧ ∀ (applyOf : List Nat → List Nat → List Nat) (x : List Nat),
        executeQueue [[114], [116], [115]] applyOf x
          = applyOf [115] (applyOf [116] (applyOf [114] x)) := by
  constructor
  · rfl
  · intro applyOf x
    rfl

/-! ## Queue-position attribute grammar (claim C10) -/

/-- The reference-id class of `compute_queue_position_match`: `[a-z-.]`
(no digits). -/
def isQueueRefChar (c : Nat) : Bool :=
  (97 ≤ c && c ≤ 122) || c == 45 || c == 46

/-- The id class of `compute_class_declaration_match`: `[a-z0-9-.]`. -/
def isClassIdChar (c : Nat) : Bool :=
  (97 ≤ c && c ≤ 122) || (48 ≤ c && c ≤ 57) || c == 45 || c == 46

/-- ASCII letters, the class `[A-Za-z]`. -/
def isAsciiLetter (c : Nat) : Bool :=
  (65 ≤ c && c ≤ 90) || (97 ≤ c && c ≤ 122)

/-- Erase the trailing whitespace run (the effect of the final `[\s]*` of
the pattern on the lazily matched `invalid_value` group). -/
def trimEndWs (l : List Nat) : List Nat :=
  (l.reverse.dropWhile isSpaceCp).reverse

/-- The result of `compute_queue_position_match` (the regex always
matches; the `invalid_value` branch captures everything between the
leading and trailing whitespace). -/
inductive QPMatch where
  | noneKeyword : QPMatch
  | rootKeyword : QPMatch
  | posRef (isBefore : Bool) (ref : List Nat) : QPMatch
  | invalid (core : List Nat) : QPMatch
deriving DecidableEq

/-- `ReplacementMaster.compute_queue_position_match`: full match of
`[\s]* ( NONE | ROOT | (BEFORE|AFTER) [ ] [#] [a-z-.]+ | lazy-invalid ) [\s]*`
with alternatives tried in order.  The keyword byte lists are
NONE = [78,79,78,69], ROOT = [82,79,79,84], and the literal heads
`BEFORE #` = [66,69,70,79,82,69,32,35] and `AFTER #` = [65,70,84,69,82,32,35]. -/
def computeQueuePositionMatch (v : List Nat) : QPMatch :=
  if ([78, 79, 78, 69].isPrefixOf (v.dropWhile isSpaceCp)
      && ((v.dropWhile isSpaceCp).drop 4).all isSpaceCp) then .noneKeyword
  else if ([82, 79, 79, 84].isPrefixOf (v.dropWhile isSpaceCp)
      && ((v.dropWhile isSpaceCp).drop 4).all isSpaceCp) then .rootKeyword
  else if ([66, 69, 70, 79, 82, 69, 32, 35].isPrefixOf (v.dropWhile isSpaceCp)
      && !(((v.dropWhile isSpaceCp).drop 8).takeWhile isQueueRefChar).isEmpty
      && (((v.dropWhile isSpaceCp).drop 8).dropWhile isQueueRefChar).all isSpaceCp) then
    .posRef true (((v.dropWhile isSpaceCp).drop 8).takeWhile isQueueRefChar)
  else if ([65, 70, 84, 69, 82, 32, 35].isPrefixOf (v.dropWhile isSpaceCp)
      && !(((v.dropWhile isSpaceCp).drop 7).takeWhile isQueueRefChar).isEmpty
      && (((v.dropWhile isSpaceCp).drop 7).dropWhile isQueueRefChar).all isSpaceCp) then
    .posRef false (((v.dropWhile isSpaceCp).drop 7).takeWhile isQueueRefChar)
  else .invalid (trimEndWs (v.dropWhile isSpaceCp))

/-- The fatal staging errors of `stage_queue_position`. -/
inductive QPStageError where
  | invalidValue (core : List Nat) : QPStageError
  | rootAlreadyDeclared : QPStageError
  | selfReferential : QPStageError
  | undefinedReplacement (ref : List Nat) : QPStageError
  | notInQueue (ref : List Nat) : QPStageError
deriving DecidableEq

/-- `ReplacementMaster.stage_queue_position`: an `invalid_value` capture is
a fatal error; `NONE` stages nothing; `ROOT` requires no prior root;
`BEFORE`/`AFTER` require the referenced id to be distinct from the rule
itself, defined, and already queued. -/
def stageQueuePosition (selfId : List Nat) (v : List Nat) (rootDeclared : Bool)
    (definedIds : List (List Nat)) (queue : List (List Nat)) :
    Except QPStageError (Option QueuePos) :=
  match computeQueuePositionMatch v with
  | .invalid core => Except.error (.invalidValue core)
  | .noneKeyword => Except.ok none
  | .rootKeyword =>
    if rootDeclared then Except.error .rootAlreadyDeclared
    else Except.ok (some .root)
  | .posRef isBefore ref =>
    if ref == selfId then Except.error .selfReferential
    else if !(definedIds.contains ref) then Except.error (.undefinedReplacement ref)
    else if !(queue.contains ref) then Except.error (.notInQueue ref)
    else Except.ok (some (if isBefore then QueuePos.before ref else QueuePos.after ref))

/-- `ReplacementMaster.compute_class_declaration_match`: full match of
`([A-Za-z]+):[\s]+[#]([a-z0-9-.]+)`, returning class name and id. -/
def computeClassDeclarationMatch (line : List Nat) : Option (List Nat × List Nat) :=
  if (line.takeWhile isAsciiLetter).isEmpty then none
  else
    match line.dropWhile isAsciiLetter with
    | [] => none
    | c1 :: rest2 =>
      if c1 = 58 then
        if (rest2.takeWhile isSpaceCp).isEmpty then none
        else
          match rest2.dropWhile isSpaceCp with
          | [] => none
          | c2 :: rest4 =>
            if c2 = 35 then
              if !rest4.isEmpty && rest4.all isClassIdChar then
                some (line.takeWhile isAsciiLetter, rest4)
              else none
            else none
      else none
    

theorem dropWhile_eq_self_of_head {p : Nat → Bool} {a : Nat} {l : List Nat}
    (h : p a = false) : (a :: l).dropWhile p = a :: l := by
  simp [List.dropWhile, h]

theorem takeWhile_cons_true {p : Nat → Bool} {a : Nat} {l : List Nat}
    (h : p a = true) : (a :: l).takeWhile p = a :: l.takeWhile p := by
  simp [List.takeWhile, h]

theorem takeWhile_cons_false {p : Nat → Bool} {a : Nat} {l : List Nat}
    (h : p a = false) : (a :: l).takeWhile p = [] := by
  simp [List.takeWhile, h]

theorem dropWhile_cons_true {p : Nat → Bool} {a : Nat} {l : List Nat}
    (h : p a = true) : (a :: l).dropWhile p = l.dropWhile p := by
  simp [List.dropWhile, h]

theorem dropWhile_nil_forall {p : Nat → Bool} {l : List Nat}
    (h : l.dropWhile p = []) : ∀ x ∈ l, p x = true := by
  induction l with
  | nil => simp
  | cons a t ih =>
    by_cases ha : p a
    · rw [dropWhile_cons_true ha] at h
      intro x hx
      rcases List.mem_cons.mp hx with hx | hx
      · rw [hx]
        exact ha
      · exact ih h x hx
    · rw [dropWhile_eq_self_of_head (by simpa using ha)] at h
      cases h

theorem head_dropWhile_false {p : Nat → Bool} {l : List Nat} {h : Nat} {t : List Nat}
    (hd : l.dropWhile p = h :: t) : p h = false := by
  induction l with
  | nil => cases hd
  | cons a r ih =>
    by_cases ha : p a
    · rw [dropWhile_cons_true ha] at hd
      exact ih hd
    · have ha2 : p a = false := by simpa using ha
      rw [dropWhile_eq_self_of_head ha2] at hd
      cases hd
      exact ha2

theorem mem_of_mem_dropWhile {p : Nat → Bool} {l : List Nat} {x : Nat}
    (hx : x ∈ l.dropWhile p) : x ∈ l := by
  induction l with
  | nil => cases hx
  | cons a r ih =>
    by_cases ha : p a
    · rw [dropWhile_cons_true ha] at hx
      exact List.mem_cons.mpr (Or.inr (ih hx))
    · rw [dropWhile_eq_self_of_head (by simpa using ha)] at hx
      exact hx

theorem classId_not_space {c : Nat} (h : isClassIdChar c = true) :
    isSpaceCp c = false := by
  simp only [isClassIdChar, Bool.or_eq_true, Bool.and_eq_true, decide_eq_true_eq,
    beq_iff_eq] at h
  have hgoal : ¬ (isSpaceCp c = true) := by
    simp only [isSpaceCp, Bool.or_eq_true, beq_iff_eq]
    omega
  simpa using hgoal

theorem digit_blocks_ref {id : List Nat}
    (hchars : ∀ c ∈ id, isClassIdChar c = true)
    (hdigit : ∃ c ∈ id, isDigitCp c = true) :
    ((id.dropWhile isQueueRefChar).all isSpaceCp) = false := by
  obtain ⟨d, hd_mem, hd_digit⟩ := hdigit
  have hd_not_ref : isQueueRefChar d = false := by
    simp only [isDigitCp, Bool.and_eq_true, decide_eq_true_eq] at hd_digit
    have hgoal : ¬ (isQueueRefChar d = true) := by
      simp only [isQueueRefChar, Bool.or_eq_true, Bool.and_eq_true, decide_eq_true_eq,
        beq_iff_eq]
      omega
    simpa using hgoal
  cases hdw : id.dropWhile isQueueRefChar with
  | nil =>
    have hall := dropWhile_nil_forall hdw
    rw [hall d hd_mem] at hd_not_ref
    cases hd_not_ref
  | cons h t =>
    have hh_false : isQueueRefChar h = false := head_dropWhile_false hdw
    have hh_mem : h ∈ id := mem_of_mem_dropWhile (by rw [hdw]; simp)
    have hh_class := hchars h hh_mem
    have hh_space : isSpaceCp h = false := by
      simp only [isClassIdChar, Bool.or_eq_true, Bool.and_eq_true, decide_eq_true_eq,
        beq_iff_eq] at hh_class
      have hgoal : ¬ (isSpaceCp h = true) := by
        simp only [isSpaceCp, Bool.or_eq_true, beq_iff_eq]
        omega
      simpa using hgoal
    simp [List.all_cons, hh_space]

theorem classId_last_not_space {id : List Nat} (hne : id ≠ [])
    (hchars : ∀ c ∈ id, isClassIdChar c = true) {l : List Nat} :
    trimEndWs (l ++ id) = l ++ id := by
  cases hrev : id.reverse with
  | nil =>
    exact absurd (by simpa using congrArg List.reverse hrev) hne
  | cons h t =>
    have hh_mem : h ∈ id := by
      rw [← List.mem_reverse, hrev]
      simp
    have hh_space : isSpaceCp h = false := classId_not_space (hchars h hh_mem)
    unfold trimEndWs
    rw [List.reverse_append, hrev, List.cons_append, dropWhile_eq_self_of_head hh_space,
      ← List.cons_append, ← hrev, ← List.reverse_append, List.reverse_reverse]

/-- Claim C10: a rule id that contains a decimal digit is accepted by the
class-declaration grammar (`[a-z0-9-.]+`, here declared as `X: #id`), yet
a `queue_position` value `BEFORE #id` or `AFTER #id` falls through to the
`invalid_value` branch of `compute_queue_position_match` (whose reference
class `[a-z-.]+` has no digits) and `stage_queue_position` aborts with an
invalid-attribute-value error, whatever the compilation state. -/
theorem queue_position_digit_id_rejected (id : List Nat)
    (hne : id ≠ []) (hchars : ∀ c ∈ id, isClassIdChar c = true)
    (hdigit : ∃ c ∈ id, isDigitCp c = true) :
    computeClassDeclarationMatch ([88, 58, 32, 35] ++ id) = some ([88], id)
    ∧ computeQueuePositionMatch ([66, 69, 70, 79, 82, 69, 32, 35] ++ id)
      = QPMatch.invalid ([66, 69, 70, 79, 82, 69, 32, 35] ++ id)
    ∧ computeQueuePositionMatch ([65, 70, 84, 69, 82, 32, 35] ++ id)
      = QPMatch.invalid ([65, 70, 84, 69, 82, 32, 35] ++ id)
    ∧ ∀ (selfId : List Nat) (rootDeclared : Bool) (definedIds queue : List (List Nat)),
        stageQueuePosition selfId ([66, 69, 70, 79, 82, 69, 32, 35] ++ id)
            rootDeclared definedIds queue
          = Except.error (QPStageError.invalidValue ([66, 69, 70, 79, 82, 69, 32, 35] ++ id))
        ∧ stageQueuePosition selfId ([65, 70, 84, 69, 82, 32, 35] ++ id)
            rootDeclared definedIds queue
          = Except.error (QPStageError.invalidValue ([65, 70, 84, 69, 82, 32, 35] ++ id)) := by
  have hidempty : id.isEmpty = false := by
    cases id with
    | nil => exact absurd rfl hne
    | cons a t => rfl
  have hidall : id.all isClassIdChar = true := List.all_eq_true.mpr hchars
  have hclass : computeClassDeclarationMatch ([88, 58, 32, 35] ++ id) = some ([88], id) := by
    show computeClassDeclarationMatch (88 :: 58 :: 32 :: 35 :: id) = some ([88], id)
    unfold computeClassDeclarationMatch
    rw [takeWhile_cons_true (by decide), takeWhile_cons_false (by decide)]
    rw [dropWhile_cons_true (by decide), dropWhile_eq_self_of_head (by decide)]
    simp only [List.isEmpty_cons, Bool.false_eq_true, if_false]
    rw [takeWhile_cons_true (by decide), takeWhile_cons_false (by decide)]
    rw [dropWhile_cons_true (by decide), dropWhile_eq_self_of_head (by decide)]
    simp only [List.isEmpty_cons, Bool.false_eq_true, if_false, if_pos rfl]
    rw [hidempty, hidall]
    rfl
  have hbefore : computeQueuePositionMatch ([66, 69, 70, 79, 82, 69, 32, 35] ++ id)
      = QPMatch.invalid ([66, 69, 70, 79, 82, 69, 32, 35] ++ id) := by
    have hrest : ([66, 69, 70, 79, 82, 69, 32, 35] ++ id).dropWhile isSpaceCp
        = [66, 69, 70, 79, 82, 69, 32, 35] ++ id := by
      show ((66 : Nat) :: ([69, 70, 79, 82, 69, 32, 35] ++ id)).dropWhile isSpaceCp = _
      rw [dropWhile_eq_self_of_head (by decide)]
      rfl
    have hN : [78, 79, 78, 69].isPrefixOf ([66, 69, 70, 79, 82, 69, 32, 35] ++ id)
        = false := by
      show [78, 79, 78, 69].isPrefixOf ((66 : Nat) :: ([69, 70, 79, 82, 69, 32, 35] ++ id))
          = false
      simp [List.isPrefixOf]
    have hR : [82, 79, 79, 84].isPrefixOf ([66, 69, 70, 79, 82, 69, 32, 35] ++ id)
        = false := by
      show [82, 79, 79, 84].isPrefixOf ((66 : Nat) :: ([69, 70, 79, 82, 69, 32, 35] ++ id))
          = false
      simp [List.isPrefixOf]
    have hA : [65, 70, 84, 69, 82, 32, 35].isPrefixOf
        ([66, 69, 70, 79, 82, 69, 32, 35] ++ id) = false := by
      show [65, 70, 84, 69, 82, 32, 35].isPrefixOf
          ((66 : Nat) :: ([69, 70, 79, 82, 69, 32, 35] ++ id)) = false
      simp [List.isPrefixOf]
    have hdrop8 : ([66, 69, 70, 79, 82, 69, 32, 35] ++ id).drop 8 = id := by
      rw [show (8 : Nat) = ([66, 69, 70, 79, 82, 69, 32, 35] : List Nat).length from rfl]
      exact List.drop_left _ _
    have hblock := digit_blocks_ref hchars hdigit
    have htrim := classId_last_not_space hne hchars
      (l := [66, 69, 70, 79, 82, 69, 32, 35])
    unfold computeQueuePositionMatch
    rw [hrest, hdrop8, hN, hR, hA, hblock, htrim]
    simp
  have hafter : computeQueuePositionMatch ([65, 70, 84, 69, 82, 32, 35] ++ id)
      = QPMatch.invalid ([65, 70, 84, 69, 82, 32, 35] ++ id) := by
    have hrest : ([65, 70, 84, 69, 82, 32, 35] ++ id).dropWhile isSpaceCp
        = [65, 70, 84, 69, 82, 32, 35] ++ id := by
      show ((65 : Nat) :: ([70, 84, 69, 82, 32, 35] ++ id)).dropWhile isSpaceCp = _
      rw [dropWhile_eq_self_of_head (by decide)]
      rfl
    have hN : [78, 79, 78, 69].isPrefixOf ([65, 70, 84, 69, 82, 32, 35] ++ id)
        = false := by
      show [78, 79, 78, 69].isPrefixOf ((65 : Nat) :: ([70, 84, 69, 82, 32, 35] ++ id))
          = false
      simp [List.isPrefixOf]
    have hR : [82, 79, 79, 84].isPrefixOf ([65, 70, 84, 69, 82, 32, 35] ++ id)
        = false := by
      show [82, 79, 79, 84].isPrefixOf ((65 : Nat) :: ([70, 84, 69, 82, 32, 35] ++ id))
          = false
      simp [List.isPrefixOf]
    have hB : [66, 69, 70, 79, 82, 69, 32, 35].isPrefixOf
        ([65, 70, 84, 69, 82, 32, 35] ++ id) = false := by
      show [66, 69, 70, 79, 82, 69, 32, 35].isPrefixOf
          ((65 : Nat) :: ([70, 84, 69, 82, 32, 35] ++ id)) = false
      simp [List.isPrefixOf]
    have hdrop7 : ([65, 70, 84, 69, 82, 32, 35] ++ id).drop 7 = id := by
      rw [show (7 : Nat) = ([65, 70, 84, 69, 82, 32, 35] : List Nat).length from rfl]
      exact List.drop_left _ _
    have hblock := digit_blocks_ref hchars hdigit
    have htrim := classId_last_not_space hne hchars (l := [65, 70, 84, 69, 82, 32, 35])
    unfold computeQueuePositionMatch
    rw [hrest, hdrop7, hN, hR, hB, hblock, htrim]
    simp
  refine ⟨hclass, hbefore, hafter, ?_⟩
  intro selfId rootDeclared definedIds queue
  constructor
  · unfold stageQueuePosition
    rw [hbefore]
  · unfold stageQueuePosition
    rw [hafter]

/-- Witness for C10 at the concrete id `r1` (code points [114, 49]). -/
theorem queue_position_digit_id_rejected_witness :
    computeClassDeclarationMatch ([88, 58, 32, 35] ++ [114, 49]) = some ([88], [114, 49])
    ∧ stageQueuePosition [120] ([66, 69, 70, 79, 82, 69, 32, 35] ++ [114, 49])
        false [[114, 49]] [[114, 49]]
      = Except.error (QPStageError.invalidValue
          ([66, 69, 70, 79, 82, 69, 32, 35] ++ [114, 49])) := by
  have h := queue_position_digit_id_rejected [114, 49] (by decide) (by decide)
    (by refine ⟨49, ?_, ?_⟩ <;> decide)
  exact ⟨h.1, (h.2.2.2 [120] false [[114, 49]] [[114, 49]]).1⟩

/-! ## De-indentation (`de_indent`), claim C6 -/

/-- Split a string into its lines at newline characters (code point 10);
a string always has at least one (possibly empty) line. -/
def splitLines : List Nat → List (List Nat)
  | [] => [[]]
  | c :: rest =>
    if c = 10 then [] :: splitLines rest
    else
      match splitLines rest with
      | l :: ls => (c :: l) :: ls
      | [] => [[c]]

/-- Join lines with newline characters (inverse of `splitLines`). -/
def joinLines : List (List Nat) → List Nat
  | [] => []
  | [l] => l
  | l :: l2 :: ls => l ++ 10 :: joinLines (l2 :: ls)

/-- The first `re.sub` of `de_indent` (`^ [^\S\n]+ \Z` with `MULTILINE`):
if the last line is non-empty and consists entirely of horizontal
whitespace, erase it. -/
def eraseTrailingWsLine : List (List Nat) → List (List Nat)
  | [] => []
  | [l] => if !l.isEmpty && l.all isHorizSpaceCp then [[]] else [l]
  | l :: l2 :: ls => l :: eraseTrailingWsLine (l2 :: ls)

/-- The `re.findall` of `de_indent` (`^ [^\S\n]+ | ^ (?! $ )` with
`MULTILINE`): every non-empty line contributes its leading run of
horizontal whitespace (possibly the empty string); empty lines contribute
nothing. -/
def lineIndents (ls : List (List Nat)) : List (List Nat) :=
  ls.filterMap (fun l => if l.isEmpty then none else some (l.takeWhile isHorizSpaceCp))

/-- Python `min(strings, key=len, default='')`: the first string of
minimal length. -/
def minByLen : List (List Nat) → List Nat
  | [] => []
  | l :: ls => ls.foldl (fun acc x => if x.length < acc.length then x else acc) l

/-- The `while` loop of `compute_longest_common_prefix`: repeatedly chop
the last character off the candidate until every string starts with it. -/
def shrinkWhile (strings : List (List Nat)) (p : List Nat) : List Nat :=
  if p = [] then p
  else if strings.all (fun s => p.isPrefixOf s) then p
  else shrinkWhile strings p.dropLast
termination_by p.length
decreasing_by
  rename_i hne _
  rw [List.length_dropLast]
  cases p with
  | nil => exact absurd rfl hne
  | cons a t => simp

/-- `compute_longest_common_prefix`. -/
def computeLongestCommonLead (strings : List (List Nat)) : List Nat :=
  shrinkWhile strings (minByLen strings)

/-- `de_indent`: erase a trailing whitespace-only line, gather the line
indents, compute their longest common lead, and remove it (the final
`re.sub` of `^` followed by the escaped lead, under `MULTILINE`) from
every line that starts with it. -/
def deIndent (s : List Nat) : List Nat :=
  joinLines ((eraseTrailingWsLine (splitLines s)).map
    (fun l =>
      if (computeLongestCommonLead (lineIndents (eraseTrailingWsLine (splitLines s)))).isPrefixOf l then
        l.drop (computeLongestCommonLead (lineIndents (eraseTrailingWsLine (splitLines s)))).length
      else l))

theorem takeWhile_isPrefixOf (p : Nat → Bool) (l : List Nat) :
    (l.takeWhile p).isPrefixOf l = true := by
  induction l with
  | nil => simp [List.takeWhile, List.isPrefixOf]
  | cons a t ih =>
    by_cases h : p a
    · rw [takeWhile_cons_true h]
      simpa [List.isPrefixOf] using ih
    · rw [takeWhile_cons_false (by simpa using h)]
      simp [List.isPrefixOf]

theorem foldl_min_mem (l : List Nat) (ls : List (List Nat)) :
    ls.foldl (fun acc x => if x.length < acc.length then x else acc) l ∈ l :: ls := by
  induction ls generalizing l with
  | nil => simp
  | cons x xs ih =>
    simp only [List.foldl_cons]
    by_cases hx : x.length < l.length
    · rw [if_pos hx]
      have h := ih x
      rcases List.mem_cons.mp h with h1 | h1
      · rw [h1]
        simp
      · simp [List.mem_cons, h1]
    · rw [if_neg hx]
      have h := ih l
      rcases List.mem_cons.mp h with h1 | h1
      · simp [h1]
      · simp [List.mem_cons, h1]

theorem minByLen_mem {strings : List (List Nat)} (h : strings ≠ []) :
    minByLen strings ∈ strings := by
  cases strings with
  | nil => exact absurd rfl h
  | cons l ls => exact foldl_min_mem l ls

theorem shrinkWhile_common (strings : List (List Nat)) (p : List Nat) :
    ∀ i ∈ strings, (shrinkWhile strings p).isPrefixOf i = true := by
  suffices hsuf : ∀ n p2, List.length p2 ≤ n →
      ∀ i ∈ strings, (shrinkWhile strings p2).isPrefixOf i = true by
    exact hsuf p.length p le_rfl
  intro n
  induction n with
  | zero =>
    intro p2 hp2 i hi
    have hnil : p2 = [] := List.eq_nil_of_length_eq_zero (by omega)
    subst hnil
    rw [shrinkWhile.eq_def]
    simp [List.isPrefixOf]
  | succ n ih =>
    intro p2 hp2 i hi
    rw [shrinkWhile.eq_def]
    split_ifs with h1 h2
    · subst h1
      simp [List.isPrefixOf]
    · exact List.all_eq_true.mp h2 i hi
    · apply ih p2.dropLast _ i hi
      rw [List.length_dropLast]
      cases p2 with
      | nil => exact absurd rfl h1
      | cons a t =>
        simp only [List.length_cons] at hp2 ⊢
        omega

theorem shrinkWhile_max (strings : List (List Nat)) (p q : List Nat)
    (hq_pre : q.isPrefixOf p = true)
    (hq_all : ∀ i ∈ strings, q.isPrefixOf i = true) :
    q.length ≤ (shrinkWhile strings p).length := by
  suffices hsuf : ∀ n p2, List.length p2 ≤ n → q.isPrefixOf p2 = true →
      q.length ≤ (shrinkWhile strings p2).length by
    exact hsuf p.length p le_rfl hq_pre
  intro n
  induction n with
  | zero =>
    intro p2 hp2 hqp
    have hnil : p2 = [] := List.eq_nil_of_length_eq_zero (by omega)
    subst hnil
    obtain ⟨t, ht⟩ := isPrefixOf_iff.mp hqp
    have hq : q = [] := (List.append_eq_nil.mp ht.symm).1
    rw [shrinkWhile.eq_def]
    simp [hq]
  | succ n ih =>
    intro p2 hp2 hqp
    rw [shrinkWhile.eq_def]
    split_ifs with h1 h2
    · subst h1
      obtain ⟨t, ht⟩ := isPrefixOf_iff.mp hqp
      have hq : q = [] := (List.append_eq_nil.mp ht.symm).1
      simp [hq]
    · exact isPrefixOf_length_le hqp
    · have hqnep2 : q ≠ p2 := by
        intro he
        exact h2 (List.all_eq_true.mpr (fun s hs => he ▸ hq_all s hs))
      obtain ⟨t, ht⟩ := isPrefixOf_iff.mp hqp
      have htne : t ≠ [] := by
        intro h0
        rw [h0, List.append_nil] at ht
        exact hqnep2 ht.symm
      have hqdl : q.isPrefixOf p2.dropLast = true := by
        cases t with
        | nil => exact absurd rfl htne
        | cons a t2 =>
          rw [ht, List.dropLast_append_cons]
          exact isPrefixOf_append_self q _
      apply ih p2.dropLast _ hqdl
      rw [List.length_dropLast]
      cases p2 with
      | nil => exact absurd rfl h1
      | cons a t3 =>
        simp only [List.length_cons] at hp2 ⊢
        omega

theorem common_lead_isPrefixOf (strings : List (List Nat)) :
    ∀ i ∈ strings, (computeLongestCommonLead strings).isPrefixOf i = true :=
  shrinkWhile_common strings (minByLen strings)

theorem common_lead_longest (strings : List (List Nat)) (hne : strings ≠ [])
    (q : List Nat) (hq : ∀ i ∈ strings, q.isPrefixOf i = true) :
    q.length ≤ (computeLongestCommonLead strings).length := by
  apply shrinkWhile_max strings (minByLen strings) q _ hq
  exact hq (minByLen strings) (minByLen_mem hne)

/-- Claim C6 (de-indentation): `de_indent` first erases a trailing
whitespace-only last line outright, then computes the longest common
leading-whitespace run over the remaining non-empty lines (whitespace-only
lines counting, fully empty lines not counting), and strips that run from
every line — equivalently, drops its length from every line, since it is a
prefix of each non-empty line; and the computed run really is the longest
common prefix of the line indents. -/
theorem de_indent_spec (s : List Nat) :
    deIndent s
      = joinLines ((eraseTrailingWsLine (splitLines s)).map
          (fun l =>
            l.drop (computeLongestCommonLead
              (lineIndents (eraseTrailingWsLine (splitLines s)))).length))
    ∧ (∀ i ∈ lineIndents (eraseTrailingWsLine (splitLines s)),
        (computeLongestCommonLead
          (lineIndents (eraseTrailingWsLine (splitLines s)))).isPrefixOf i = true)
    ∧ (∀ q : List Nat, (∀ i ∈ lineIndents (eraseTrailingWsLine (splitLines s)),
          q.isPrefixOf i = true) →
        lineIndents (eraseTrailingWsLine (splitLines s)) ≠ [] →
        q.length ≤ (computeLongestCommonLead
          (lineIndents (eraseTrailingWsLine (splitLines s)))).length) := by
  refine ⟨?_, common_lead_isPrefixOf _, fun q hq hne => common_lead_longest _ hne q hq⟩
  unfold deIndent
  congr 1
  apply List.map_congr_left
  intro l hl
  by_cases hpre : (computeLongestCommonLead
      (lineIndents (eraseTrailingWsLine (splitLines s)))).isPrefixOf l = true
  · rw [if_pos hpre]
  · rw [if_neg (by simpa using hpre)]
    cases hl2 : l with
    | nil => simp
    | cons a t =>
      exfalso
      apply hpre
      have hind : l.takeWhile isHorizSpaceCp
          ∈ lineIndents (eraseTrailingWsLine (splitLines s)) := by
        unfold lineIndents
        rw [List.mem_filterMap]
        refine ⟨l, hl, ?_⟩
        rw [hl2]
        simp [List.isEmpty_cons]
      have h1 := common_lead_isPrefixOf _ _ hind
      exact isPrefixOf_trans h1 (takeWhile_isPrefixOf _ _)

/-- Witness for C6 at the concrete input `"  a\n   b\n "` (two indented
lines and a trailing whitespace-only line), instantiating the maximality
part at the candidate prefix `" "`. -/
theorem de_indent_spec_witness :
    deIndent [32, 32, 97, 10, 32, 32, 32, 98, 10, 32]
      = joinLines ((eraseTrailingWsLine
          (splitLines [32, 32, 97, 10, 32, 32, 32, 98, 10, 32])).map
          (fun l =>
            l.drop (computeLongestCommonLead
              (lineIndents (eraseTrailingWsLine
                (splitLines [32, 32, 97, 10, 32, 32, 32, 98, 10, 32])))).length))
    ∧ List.length [32] ≤ (computeLongestCommonLead
        (lineIndents (eraseTrailingWsLine
          (splitLines [32, 32, 97, 10, 32, 32, 32, 98, 10, 32])))).length :=
  ⟨(de_indent_spec [32, 32, 97, 10, 32, 32, 32, 98, 10, 32]).1,
   (de_indent_spec [32, 32, 97, 10, 32, 32, 32, 98, 10, 32]).2.2 [32]
     (by decide) (by decide)⟩

/-! ## Attribute specifications (`build_attributes_sequence`), claim C7 -/

/-- One attribute specification as extracted by
`extract_attribute_name_and_value`: a name with a value (`some`) or a
boolean attribute (value `none`), or a deletion (`-name`). -/
inductive AttrToken where
  | pair (name : List Nat) (value : Option (List Nat)) : AttrToken
  | omit (name : List Nat) : AttrToken
deriving DecidableEq

/-- The name abbreviations of `ATTRIBUTE_NAME_FROM_ABBREVIATION`:
`#` id, `.` class, `l` lang, `r` rowspan, `c` colspan, `w` width,
`h` height, `s` style. -/
def expandAttrName (n : List Nat) : List Nat :=
  if n = [35] then [105, 100]
  else if n = [46] then [99, 108, 97, 115, 115]
  else if n = [108] then [108, 97, 110, 103]
  else if n = [114] then [114, 111, 119, 115, 112, 97, 110]
  else if n = [99] then [99, 111, 108, 115, 112, 97, 110]
  else if n = [119] then [119, 105, 100, 116, 104]
  else if n = [104] then [104, 101, 105, 103, 104, 116]
  else if n = [115] then [115, 116, 121, 108, 101]
  else n

/-- The attribute name `class` as code points. -/
def clsName : List Nat := [99, 108, 97, 115, 115]

/-- Parse one attribute specification starting at the non-whitespace
character `c` with remaining input `rest`, following the alternatives of
`compute_attribute_specification_matches` in order (`name=value` first,
then `#id`, `.class`, `r`/`c`/`w`/`h` digits, `-delete`, boolean).
Returns the extracted token and the number of characters consumed from
`rest`. -/
def parseItem (c : Nat) (rest : List Nat) : AttrToken × Nat :=
  let nm := rest.takeWhile (fun x => !isSpaceCp x && !(x == 61))
  let afterNm := rest.drop nm.length
  if !(c == 61) && !afterNm.isEmpty && afterNm.headD 0 == 61 then
    -- «name» `=` «value»: the name is the maximal run of `[^\s=]` from `c`
    let v := afterNm.drop 1
    if v.headD 0 == 34 && (v.drop 1).contains 34 then
      let value := (v.drop 1).takeWhile (fun x => !(x == 34))
      (AttrToken.pair (expandAttrName (c :: nm)) (some value),
        nm.length + 3 + value.length)
    else if v.headD 0 == 39 && (v.drop 1).contains 39 then
      let value := (v.drop 1).takeWhile (fun x => !(x == 39))
      (AttrToken.pair (expandAttrName (c :: nm)) (some value),
        nm.length + 3 + value.length)
    else
      let value := v.takeWhile (fun x => !isSpaceCp x)
      (AttrToken.pair (expandAttrName (c :: nm)) (some value),
        nm.length + 1 + value.length)
  else if c == 35 && !(rest.takeWhile (fun x => !isSpaceCp x && !(x == 34))).isEmpty then
    (AttrToken.pair [105, 100] (some (rest.takeWhile (fun x => !isSpaceCp x && !(x == 34)))),
      (rest.takeWhile (fun x => !isSpaceCp x && !(x == 34))).length)
  else if c == 46 && !(rest.takeWhile (fun x => !isSpaceCp x && !(x == 34))).isEmpty then
    (AttrToken.pair clsName (some (rest.takeWhile (fun x => !isSpaceCp x && !(x == 34)))),
      (rest.takeWhile (fun x => !isSpaceCp x && !(x == 34))).length)
  else if c == 114 && !(rest.takeWhile isDigitCp).isEmpty then
    (AttrToken.pair [114, 111, 119, 115, 112, 97, 110] (some (rest.takeWhile isDigitCp)),
      (rest.takeWhile isDigitCp).length)
  else if c == 99 && !(rest.takeWhile isDigitCp).isEmpty then
    (AttrToken.pair [99, 111, 108, 115, 112, 97, 110] (some (rest.takeWhile isDigitCp)),
      (rest.takeWhile isDigitCp).length)
  else if c == 119 && !(rest.takeWhile isDigitCp).isEmpty then
    (AttrToken.pair [119, 105, 100, 116, 104] (some (rest.takeWhile isDigitCp)),
      (rest.takeWhile isDigitCp).length)
  else if c == 104 && !(rest.takeWhile isDigitCp).isEmpty then
    (AttrToken.pair [104, 101, 105, 103, 104, 116] (some (rest.takeWhile isDigitCp)),
      (rest.takeWhile isDigitCp).length)
  else if c == 45 && !(rest.takeWhile (fun x => !isSpaceCp x)).isEmpty then
    (AttrToken.omit (rest.takeWhile (fun x => !isSpaceCp x)),
      (rest.takeWhile (fun x => !isSpaceCp x)).length)
  else
    (AttrToken.pair (c :: rest.takeWhile (fun x => !isSpaceCp x)) none,
      (rest.takeWhile (fun x => !isSpaceCp x)).length)

/-- `compute_attribute_specification_matches` as a tokenizer: skip
whitespace (the `[\s]*` flanks of the pattern), parse one specification,
repeat (with structural fuel; every iteration consumes at least one
character). -/
def attrTokensGo : Nat → List Nat → List AttrToken
  | 0, _ => []
  | fuel + 1, s =>
    match s.dropWhile isSpaceCp with
    | [] => []
    | c :: rest =>
      (parseItem c rest).1 :: attrTokensGo fuel (rest.drop (parseItem c rest).2)

def attrTokens (s : List Nat) : List AttrToken :=
  attrTokensGo (s.length + 1) s

/-- Update an insertion-ordered dictionary at a key, keeping its position,
or append a new entry (Python dict assignment). -/
def updateEntry : List (List Nat × Option (List Nat)) → List Nat → Option (List Nat)
    → List (List Nat × Option (List Nat))
  | [], n, v => [(n, v)]
  | e :: rest, n, v => if e.1 == n then (n, v) :: rest else e :: updateEntry rest n v

/-- Remove the entry with the given key, if present (Python `dict.pop`
with a default). -/
def removeAttr : List (List Nat × Option (List Nat)) → List Nat
    → List (List Nat × Option (List Nat))
  | [], _ => []
  | e :: rest, n => if e.1 == n then rest else e :: removeAttr rest n

/-- Look up a key (`None` values distinguished from absence). -/
def lookupAttr (d : List (List Nat × Option (List Nat))) (n : List Nat) :
    Option (Option (List Nat)) :=
  (d.find? (fun e => e.1 == n)).map Prod.snd

/-- The string Python formats for a value inside `f-strings`: `None`
becomes the four letters `None`. -/
def valueStr : Option (List Nat) → List Nat
  | some v => v
  | none => [78, 111, 110, 101]

/-- Append text to the stored `class` value in place. -/
def appendClassVal : List (List Nat × Option (List Nat)) → List Nat
    → List (List Nat × Option (List Nat))
  | [], _ => []
  | e :: rest, add =>
    if e.1 == clsName then
      (e.1, (match e.2 with
             | some old => some (old ++ add)
             | none => none)) :: rest
    else e :: appendClassVal rest add

/-- One step of the dictionary-building loop of
`build_attributes_sequence`: `class` appends (separated by a space; a
stored `None` value raises an uncaught `TypeError`, modelled as an error),
any other name overwrites in place, a deletion pops. -/
def applyAttrToken (d : List (List Nat × Option (List Nat))) :
    AttrToken → Except Unit (List (List Nat × Option (List Nat)))
  | .omit n => Except.ok (removeAttr d n)
  | .pair n v =>
    if n == clsName then
      match lookupAttr d clsName with
      | some (some _) => Except.ok (appendClassVal d (32 :: valueStr v))
      | some none => Except.error ()
      | none => Except.ok (d ++ [(clsName, v)])
    else Except.ok (updateEntry d n v)

/-- The dictionary-building loop over all extracted tokens. -/
def buildAttrDict (tokens : List AttrToken) :
    Except Unit (List (List Nat × Option (List Nat))) :=
  tokens.foldlM applyAttrToken []

/-- Hexadecimal digits `[0-9a-fA-F]`. -/
def isHexCp (c : Nat) : Bool :=
  isDigitCp c || (97 ≤ c && c ≤ 102) || (65 ≤ c && c ≤ 70)

/-- The negative lookahead of `escape_attribute_value_html`: the text
after an ampersand looks like an entity (a run of 1 to 31 letters, or `#`
with 1 to 7 decimal digits, or `#x`/`#X` with 1 to 6 hex digits, followed
by a semicolon). -/
def entityLike (rest : List Nat) : Bool :=
  if rest.headD 0 == 35 then
    if (rest.drop 1).headD 0 == 120 || (rest.drop 1).headD 0 == 88 then
      !((rest.drop 2).takeWhile isHexCp).isEmpty
        && ((rest.drop 2).takeWhile isHexCp).length ≤ 6
        && ((rest.drop 2).drop ((rest.drop 2).takeWhile isHexCp).length).headD 0 == 59
    else
      !((rest.drop 1).takeWhile isDigitCp).isEmpty
        && ((rest.drop 1).takeWhile isDigitCp).length ≤ 7
        && ((rest.drop 1).drop ((rest.drop 1).takeWhile isDigitCp).length).headD 0 == 59
  else
    !(rest.takeWhile isAsciiLetter).isEmpty
      && (rest.takeWhile isAsciiLetter).length ≤ 31
      && (rest.drop (rest.takeWhile isAsciiLetter).length).headD 0 == 59

/-- The first `re.sub` of `escape_attribute_value_html`: escape an
ampersand unless it starts an entity-like sequence. -/
def escapeAmps : List Nat → List Nat
  | [] => []
  | c :: rest =>
    if c = 38 then
      (if entityLike rest then [38] else [38, 97, 109, 112, 59]) ++ escapeAmps rest
    else c :: escapeAmps rest

/-- `escape_attribute_value_html`: the ampersand pass followed by the
replacements of `<`, `>` and `"` by their entities. -/
def escapeAttrValueHtml (v : List Nat) : List Nat :=
  strReplace (strReplace (strReplace (escapeAmps v) [60] [38, 108, 116, 59])
    [62] [38, 103, 116, 59]) [34] [38, 113, 117, 111, 116, 59]

/-- Render one dictionary entry of the output loop of
`build_attributes_sequence`: a boolean attribute as a space and its name,
a valued attribute as a space, the name, `="`, the unprotected and
HTML-escaped value, and `"`. -/
def renderAttrEntry (e : List Nat × Option (List Nat)) : Except Unit (List Nat) :=
  match e.2 with
  | none => Except.ok (32 :: e.1)
  | some v => do
    let u ← unprotect v
    Except.ok (32 :: e.1 ++ [61, 34] ++ escapeAttrValueHtml u ++ [34])

/-- `build_attributes_sequence(attribute_specifications, use_protection)`. -/
def buildAttributesSequence (spec : List Nat) (useProtection : Bool) :
    Except Unit (List Nat) := do
  let d ← buildAttrDict (attrTokens spec)
  let parts ← d.mapM renderAttrEntry
  let seq := parts.foldl (fun acc x => acc ++ x) []
  if useProtection then protect seq else Except.ok seq

theorem lookup_updateEntry (d : List (List Nat × Option (List Nat))) (n : List Nat)
    (v : Option (List Nat)) : lookupAttr (updateEntry d n v) n = some v := by
  induction d with
  | nil => simp [updateEntry, lookupAttr, List.find?]
  | cons e rest ih =>
    by_cases h : e.1 == n
    · simp [updateEntry, h, lookupAttr, List.find?]
    · have h2 : (e.1 == n) = false := by simpa using h
      simp only [updateEntry, h2, Bool.false_eq_true, if_false]
      unfold lookupAttr at ih ⊢
      simp only [List.find?, h2]
      exact ih

theorem lookup_appendClassVal (d : List (List Nat × Option (List Nat)))
    (old add : List Nat) (h : lookupAttr d clsName = some (some old)) :
    lookupAttr (appendClassVal d add) clsName = some (some (old ++ add)) := by
  induction d with
  | nil => simp [lookupAttr, List.find?] at h
  | cons e rest ih =>
    by_cases he : e.1 == clsName
    · unfold lookupAttr at h
      simp only [List.find?, he] at h
      simp at h
      unfold appendClassVal
      rw [if_pos he]
      unfold lookupAttr
      simp only [List.find?, he, h]
      rfl
    · have he2 : (e.1 == clsName) = false := by simpa using he
      unfold lookupAttr at h
      simp only [List.find?, he2] at h
      unfold appendClassVal
      rw [if_neg (by simp [he2])]
      unfold lookupAttr
      simp only [List.find?, he2]
      exact ih h

/-- Claim C7 (attribute merging): building the attribute sequence from the
specification string `id=x #y .a .b name=value .=c class="d"` yields
exactly ` id="y" class="a b c d" name="value"`; and in general, a later
specification of a name overwrites the stored value for that name (the
latest wins), except that a `class` specification appends to the stored
class value after a space, in encounter order. -/
theorem build_attributes_example :
    buildAttributesSequence [105, 100, 61, 120, 32, 35, 121, 32, 46, 97, 32, 46, 98, 32, 110, 97, 109, 101, 61, 118, 97, 108, 117, 101, 32, 46, 61, 99, 32, 99, 108, 97, 115, 115, 61, 34, 100, 34] false = Except.ok [32, 105, 100, 61, 34, 121, 34, 32, 99, 108, 97, 115, 115, 61, 34, 97, 32, 98, 32, 99, 32, 100, 34, 32, 110, 97, 109, 101, 61, 34, 118, 97, 108, 117, 101, 34]
    ∧ (∀ (d : List (List Nat × Option (List Nat))) (n : List Nat)
          (v : Option (List Nat)) (d2 : List (List Nat × Option (List Nat))),
        n ≠ clsName → applyAttrToken d (AttrToken.pair n v) = Except.ok d2 →
        lookupAttr d2 n = some v)
    ∧ (∀ (d : List (List Nat × Option (List Nat))) (old : List Nat)
          (v : Option (List Nat)) (d2 : List (List Nat × Option (List Nat))),
        lookupAttr d clsName = some (some old) →
        applyAttrToken d (AttrToken.pair clsName v) = Except.ok d2 →
        lookupAttr d2 clsName = some (some (old ++ 32 :: valueStr v))) := by
  refine ⟨by rfl, ?_, ?_⟩
  · intro d n v d2 hn happ
    have hne : (n == clsName) = false := by
      simp only [beq_eq_false_iff_ne, ne_eq]
      exact hn
    simp only [applyAttrToken] at happ
    rw [if_neg (by simp [hne])] at happ
    simp only [Except.ok.injEq] at happ
    rw [← happ]
    exact lookup_updateEntry d n v
  · intro d old v d2 hlook happ
    simp only [applyAttrToken] at happ
    rw [if_pos (by simp)] at happ
    rw [hlook] at happ
    simp only [Except.ok.injEq] at happ
    rw [← happ]
    exact lookup_appendClassVal d old (32 :: valueStr v) hlook

/-- Witness for C7: the concrete conversion itself, a last-wins
instantiation (`name=value` into the empty dictionary), and a class-append
instantiation (appending `c` to a stored class `a`). -/
theorem build_attributes_example_witness :
    buildAttributesSequence [105, 100, 61, 120, 32, 35, 121, 32, 46, 97, 32, 46, 98, 32, 110, 97, 109, 101, 61, 118, 97, 108, 117, 101, 32, 46, 61, 99, 32, 99, 108, 97, 115, 115, 61, 34, 100, 34] false = Except.ok [32, 105, 100, 61, 34, 121, 34, 32, 99, 108, 97, 115, 115, 61, 34, 97, 32, 98, 32, 99, 32, 100, 34, 32, 110, 97, 109, 101, 61, 34, 118, 97, 108, 117, 101, 34]
    ∧ lookupAttr [([110], some [118])] [110] = some (some [118])
    ∧ lookupAttr [(clsName, some [97, 32, 99])] clsName
      = some (some ([97] ++ 32 :: valueStr (some [99]))) :=
  ⟨build_attributes_example.1,
   build_attributes_example.2.1 [] [110] (some [118]) [([110], some [118])]
     (by decide) rfl,
   build_attributes_example.2.2 [(clsName, some [97])] [97] (some [99])
     [(clsName, some [97, 32, 99])] rfl rfl⟩

/-! ## Reference table and referenced link/image fallback, claim C8 -/

/-- A stored reference (`Reference`): attribute specifications, URI
(`href` for links, `src` for images) and title, each possibly absent. -/
structure Reference where
  attributeSpecifications : Option (List Nat)
  uri : Option (List Nat)
  title : Option (List Nat)
deriving DecidableEq

/-- `str.lower` on one code point, modelled on the ASCII range: non-ASCII
code points pass through unchanged, where Python also folds non-ASCII
upper case.  The fallback theorems below quantify over the outcome of the
table lookup itself, so they do not depend on the case-folding details. -/
def toLowerCp (c : Nat) : Nat :=
  if 65 ≤ c ∧ c ≤ 90 then c + 32 else c

/-- `ReferenceMaster.normalise_label`: lower-case the label. -/
def normaliseLabel (label : List Nat) : List Nat :=
  label.map toLowerCp

/-- `ReferenceMaster.load_definition`: look up the normalised label,
raising `UnrecognisedLabelException` (modelled as `Except.error`) when the
label has no entry. -/
def loadDefinition (table : List (List Nat × Reference)) (label : List Nat) :
    Except Unit Reference :=
  match table.find? (fun e => e.1 == normaliseLabel label) with
  | some e => Except.ok e.2
  | none => Except.error ()

/-- Python `' '.join`. -/
def joinSpace : List (List Nat) → List Nat
  | [] => []
  | [x] => x
  | x :: y :: r => x ++ 32 :: joinSpace (y :: r)

/-- `none_to_empty_string`. -/
def noneToEmpty : Option (List Nat) → List Nat
  | some x => x
  | none => []

/-- The label actually looked up by the substitute functions: the `label`
group, or the content (link text or alt text) when that group is absent or
empty. -/
def effectiveLabel (label : Option (List Nat)) (content : List Nat) : List Nat :=
  match label with
  | none => content
  | some lb => if lb.isEmpty then content else lb

/-- The captures of one referenced-link match: the whole matched text and
the `link_text`, `attribute_specifications` and `label` groups. -/
structure RefLinkMatch where
  whole : List Nat
  linkText : List Nat
  attributeSpecifications : Option (List Nat)
  label : Option (List Nat)
deriving DecidableEq

/-- The captures of one referenced-image match. -/
structure RefImageMatch where
  whole : List Nat
  altText : List Nat
  attributeSpecifications : Option (List Nat)
  label : Option (List Nat)
deriving DecidableEq

/-- `ReferencedLinkReplacement.build_substitute_function`: on an
unrecognised label the whole matched text is returned unchanged; otherwise
href and title are placeholder-protected, merged with the referenced,
rule-level and matched attribute specifications, and wrapped in an anchor
element. -/
def referencedLinkSubstitute (ruleAttrSpecs : Option (List Nat))
    (table : List (List Nat × Reference)) (m : RefLinkMatch) :
    Except Unit (List Nat) :=
  match loadDefinition table (effectiveLabel m.label m.linkText) with
  | Except.error _ => Except.ok m.whole
  | Except.ok ref => do
    let hrefSpec ←
      match ref.uri with
      | some h => do
        let hp ← protect h
        Except.ok ([104, 114, 101, 102, 61] ++ hp)
      | none => Except.ok []
    let titleSpec ←
      match ref.title with
      | some t => do
        let tp ← protect t
        Except.ok ([116, 105, 116, 108, 101, 61] ++ tp)
      | none => Except.ok []
    let base := joinSpace [hrefSpec, titleSpec, noneToEmpty ref.attributeSpecifications]
    let combined :=
      match ruleAttrSpecs with
      | some ras => joinSpace [base, ras, noneToEmpty m.attributeSpecifications]
      | none => base
    let attrsSeq ← buildAttributesSequence combined true
    Except.ok ([60, 97] ++ attrsSeq ++ [62] ++ m.linkText ++ [60, 47, 97, 62])

/-- `ReferencedImageReplacement.build_substitute_function`: the alt text is
placeholder-protected before the label lookup; an unrecognised label then
returns the whole matched text unchanged; otherwise src and title are
protected, the specifications merged, and an img element built. -/
def referencedImageSubstitute (ruleAttrSpecs : Option (List Nat))
    (table : List (List Nat × Reference)) (m : RefImageMatch) :
    Except Unit (List Nat) := do
  let altP ← protect m.altText
  match loadDefinition table (effectiveLabel m.label m.altText) with
  | Except.error _ => Except.ok m.whole
  | Except.ok ref => do
    let srcP ← protect (noneToEmpty ref.uri)
    let titleSpec ←
      match ref.title with
      | some t => do
        let tp ← protect t
        Except.ok ([116, 105, 116, 108, 101, 61] ++ tp)
      | none => Except.ok []
    let base := joinSpace [[97, 108, 116, 61] ++ altP, [115, 114, 99, 61] ++ srcP,
      titleSpec, noneToEmpty ref.attributeSpecifications]
    let combined :=
      match ruleAttrSpecs with
      | some ras => joinSpace [base, ras, noneToEmpty m.attributeSpecifications]
      | none => base
    let attrsSeq ← buildAttributesSequence combined true
    Except.ok ([60, 105, 109, 103] ++ attrsSeq ++ [62])

/-- Claim C8 counterexample: a referenced-image match with an unresolved
label whose alt text is the poisoned span `U+F8FF U+E100 U+F8FF`.  The
substitute function protects the alt text before the label lookup
(cmd.py line 2077), protection re-runs `unprotect`, and the uncaught
`ValueError` of claim C3 propagates: the substitution aborts instead of
returning the original matched text, although the label (here, on the
empty reference table) is unresolved. -/
theorem unresolved_reference_counterexample :
    loadDefinition [] (effectiveLabel (none : Option (List Nat))
      [63743, 57600, 63743]) = Except.error ()
    ∧ referencedImageSubstitute none []
        (RefImageMatch.mk [121] [63743, 57600, 63743] none none)
      = Except.error ()
    ∧ referencedImageSubstitute none []
        (RefImageMatch.mk [121] [63743, 57600, 63743] none none)
      ≠ Except.ok (RefImageMatch.mk [121] [63743, 57600, 63743] none none).whole := by
  refine ⟨rfl, rfl, ?_⟩
  intro h
  rw [show referencedImageSubstitute none []
      (RefImageMatch.mk [121] [63743, 57600, 63743] none none)
      = Except.error () from rfl] at h
  exact Except.noConfusion h

/-- Claim C8, amended (unresolved reference fallback): for every
referenced-link match whose effective label (case-folded) has no entry in
the reference table, the substitution returns the original matched text
unchanged and no error propagates; for a referenced-image match with an
unresolved label the same holds provided the placeholder protection of its
alt text succeeds — the alt text is protected before the label lookup, so
an alt text whose protection raises propagates that error instead of
returning the matched text. -/
theorem unresolved_reference_fallback
    (table : List (List Nat × Reference)) (ruleAttrSpecs : Option (List Nat)) :
    (∀ m : RefLinkMatch,
      loadDefinition table (effectiveLabel m.label m.linkText) = Except.error () →
      referencedLinkSubstitute ruleAttrSpecs table m = Except.ok m.whole)
    ∧ (∀ (m : RefImageMatch) (pa : List Nat),
      protect m.altText = Except.ok pa →
      loadDefinition table (effectiveLabel m.label m.altText) = Except.error () →
      referencedImageSubstitute ruleAttrSpecs table m = Except.ok m.whole) := by
  constructor
  · intro m hload
    unfold referencedLinkSubstitute
    rw [hload]
  · intro m pa hprot hload
    unfold referencedImageSubstitute
    rw [hprot]
    show Except.bind _ _ = _
    simp only [Except.bind]
    rw [hload]

/-- Witness for C8 on the empty reference table, with a link match
(whole `x`, link text `l`) and an image match (whole `y`, alt text `a`). -/
theorem unresolved_reference_fallback_witness :
    referencedLinkSubstitute none [] (RefLinkMatch.mk [120] [108] none none)
      = Except.ok [120]
    ∧ referencedImageSubstitute none [] (RefImageMatch.mk [121] [97] none none)
      = Except.ok [121] :=
  ⟨(unresolved_reference_fallback [] none).1 (RefLinkMatch.mk [120] [108] none none) rfl,
   (unresolved_reference_fallback [] none).2 (RefImageMatch.mk [121] [97] none none)
     [63743, 57441, 63743] rfl rfl⟩

end Cmd
